import Mathlib

/-!
Verification of the SNote hierarchical document store.

This development gives a shallow embedding of the in-memory tree model and
the pure tree/codec operations of the SNote frontend
(src/frontend/utils/tree.ts, src/frontend/utils/frontmatter.ts, and the
pure state-transformation parts of src/frontend/hooks/useNotes.ts, plus the
zip-entry filter of src/backend/routes/ai.js), and proves or refutes the
testable properties stated for them.

JavaScript strings are embedded as lists of characters (`Str`), so that
all string primitives used by the code (startsWith, endsWith, split, trim,
indexOf, localeCompare) have transparent executable counterparts.
-/

/-- JavaScript strings are modelled as lists of characters. -/
abbrev Str := List Char

/-- The characters matched by the regex class \s that occur in the ASCII
range (the code is only ever exercised with ASCII markers; the Unicode
space characters additionally matched by JavaScript are not modelled). -/
def isSpaceJS (c : Char) : Bool :=
  c = ' ' || c = '\t' || c = '\n' || c = '\r' || c = '\x0b' || c = '\x0c'

/-- JavaScript String.prototype.trim on the modelled character set. -/
def trimJS (s : Str) : Str :=
  ((s.dropWhile isSpaceJS).reverse.dropWhile isSpaceJS).reverse

/-- JavaScript String.prototype.split with a single-character separator:
splits at every occurrence, keeping empty segments. -/
def splitOnChar (sep : Char) : Str → List Str
  | [] => [[]]
  | c :: rest =>
    let r := splitOnChar sep rest
    if c = sep then [] :: r
    else
      match r with
      | h :: t => (c :: h) :: t
      | [] => [[c]]

/-- Index of the first occurrence of a character (JavaScript indexOf;
`none` plays the role of -1). -/
def firstIdxOfChar (c : Char) : Str → Option Nat
  | [] => none
  | a :: rest =>
    if a = c then some 0
    else (firstIdxOfChar c rest).map (· + 1)

/-- Index of the first occurrence of a substring (used to model the lazy
part of the front-matter regex). -/
def findSubIdx (pat : Str) : Str → Option Nat
  | [] => if pat = [] then some 0 else none
  | a :: rest =>
    if pat.isPrefixOf (a :: rest) then some 0
    else (findSubIdx pat rest).map (· + 1)

/-- JavaScript s.startsWith(pre). -/
def jsStartsWith (s pre : Str) : Bool := pre.isPrefixOf s

/-- JavaScript s.endsWith(suf). -/
def jsEndsWith (s suf : Str) : Bool := suf.isSuffixOf s

/-- `parentPath ? parentPath + '/' + base : base`, the path-building idiom
used throughout useNotes.ts. -/
def joinPath (parent base : Str) : Str :=
  if parent = [] then base else parent ++ '/' :: base

/-- Code-point comparison of two strings. String.prototype.localeCompare is
locale dependent; it is modelled here as code-point lexicographic
comparison, which is the invariant-relevant content (a total order on
names). -/
def cmpStr : Str → Str → Ordering
  | [], [] => Ordering.eq
  | [], _ :: _ => Ordering.lt
  | _ :: _, [] => Ordering.gt
  | a :: as, b :: bs =>
    if a < b then Ordering.lt
    else if b < a then Ordering.gt
    else cmpStr as bs

/-! ## The data model (src/frontend/types, as used by the code)

`Item` is the tagged union of Notes and Folders.  Folder children are a
mutually inductive list so that all tree operations are structurally
recursive (and hence compute by `rfl`/`decide`). -/

mutual
inductive Item where
  | note (id name content : Str) (tags : List Str) (path : Str) (isContentLoaded : Bool)
  | folder (id name : Str) (children : ItemList) (isOpen : Bool) (path : Str) (isLoadingContents : Bool)
inductive ItemList where
  | nil
  | cons (head : Item) (tail : ItemList)
end

def Item.id : Item → Str
  | Item.note i _ _ _ _ _ => i
  | Item.folder i _ _ _ _ _ => i

def Item.name : Item → Str
  | Item.note _ n _ _ _ _ => n
  | Item.folder _ n _ _ _ _ => n

def Item.path : Item → Str
  | Item.note _ _ _ _ p _ => p
  | Item.folder _ _ _ _ p _ => p

/-- `item.type === 'folder'`. -/
def Item.isFolder : Item → Bool
  | Item.note _ _ _ _ _ _ => false
  | Item.folder _ _ _ _ _ _ => true

/-- Children of a folder (`ItemList.nil` for notes, which have none). -/
def Item.children : Item → ItemList
  | Item.note _ _ _ _ _ _ => ItemList.nil
  | Item.folder _ _ ch _ _ _ => ch

def ItemList.append : ItemList → ItemList → ItemList
  | ItemList.nil, l => l
  | ItemList.cons h t, l => ItemList.cons h (t.append l)

/-- A one-element list. -/
def ItemList.single (x : Item) : ItemList := ItemList.cons x ItemList.nil

/-- View an `ItemList` as a Lean list (for stating membership and
permutation facts). -/
def topList : ItemList → List Item
  | ItemList.nil => []
  | ItemList.cons h t => h :: topList t

/-! ## tree.ts: sortFileSystemItems and the comparator order -/

/-- src/frontend/utils/tree.ts sortFileSystemItems: folders before notes,
then by name (localeCompare modelled as `cmpStr`).  Returns the comparator
value as an integer exactly like the source. -/
def sortFileSystemItems (a b : Item) : Int :=
  if a.isFolder && !b.isFolder then -1
  else if !a.isFolder && b.isFolder then 1
  else
    match cmpStr a.name b.name with
    | Ordering.lt => -1
    | Ordering.eq => 0
    | Ordering.gt => 1

/-- `a` may be placed before `b` by the comparator. -/
def itemLe (a b : Item) : Bool := sortFileSystemItems a b ≤ 0

/-- Insert into a sorted list (keeping existing order among smaller
elements). -/
def insertSorted (x : Item) : ItemList → ItemList
  | ItemList.nil => ItemList.single x
  | ItemList.cons y ys =>
    if itemLe y x then ItemList.cons y (insertSorted x ys)
    else ItemList.cons x (ItemList.cons y ys)

/-- Model of `array.sort(sortFileSystemItems)`.  JavaScript's sort is only
observed through the resulting order, which for this total comparator is
the order produced by insertion sort. -/
def sortItems : ItemList → ItemList
  | ItemList.nil => ItemList.nil
  | ItemList.cons h t => insertSorted h (sortItems t)

/-! ## tree.ts: findItemAndParent

The source iterates over the level, returning the first id match together
with the parent folder of the level, and otherwise recursing into folder
children.  The loop is split into a per-item and a per-list function. -/

mutual
/-- Search one item (and its subtree): the loop body of findItemAndParent. -/
def findInItem (tid : Str) (par : Option Item) : Item → Option Item × Option Item
  | Item.note i n c tg p l =>
    if i = tid then (some (Item.note i n c tg p l), par) else (none, none)
  | Item.folder i n ch op p l =>
    if i = tid then (some (Item.folder i n ch op p l), par)
    else findInList tid (some (Item.folder i n ch op p l)) ch
/-- Search a level left to right, short-circuiting on the first hit. -/
def findInList (tid : Str) (par : Option Item) : ItemList → Option Item × Option Item
  | ItemList.nil => (none, none)
  | ItemList.cons h t =>
    match findInItem tid par h with
    | (some r, rp) => (some r, rp)
    | (none, _) => findInList tid par t
end

/-- src/frontend/utils/tree.ts findItemAndParent (initial parent null). -/
def findItemAndParent (items : ItemList) (itemId : Str) : Option Item × Option Item :=
  findInList itemId none items

/-! ## tree.ts: addItemToFolder -/

mutual
/-- The map body of addItemToFolder: a matching folder receives the items
(children re-sorted, isOpen forced true); other folders recurse. -/
def addToFolderItem (target : Str) (xs : ItemList) : Item → Item
  | Item.note i n c tg p l => Item.note i n c tg p l
  | Item.folder i n ch op p l =>
    if i = target then Item.folder i n (sortItems (ch.append xs)) true p l
    else Item.folder i n (addItemToFolder target xs ch) op p l
/-- src/frontend/utils/tree.ts addItemToFolder. -/
def addItemToFolder (target : Str) (xs : ItemList) : ItemList → ItemList
  | ItemList.nil => ItemList.nil
  | ItemList.cons h t => ItemList.cons (addToFolderItem target xs h) (addItemToFolder target xs t)
end

/-! ## tree.ts: updateItemRecursive -/

mutual
def updateItemOne (upd : Item) : Item → Item
  | Item.note i n c tg p l =>
    if i = upd.id then upd else Item.note i n c tg p l
  | Item.folder i n ch op p l =>
    if i = upd.id then upd else Item.folder i n (updateItemRecursive upd ch) op p l
/-- src/frontend/utils/tree.ts updateItemRecursive: replace by id, no
re-sort. -/
def updateItemRecursive (upd : Item) : ItemList → ItemList
  | ItemList.nil => ItemList.nil
  | ItemList.cons h t => ItemList.cons (updateItemOne upd h) (updateItemRecursive upd t)
end

/-! ## tree.ts: findAndRemoveItem -/

/-- Top-level filter pass of findAndRemoveItem: removes the id matches at
this level and reports the last one found (the source overwrites
`foundItem` on every match). -/
def removeAtLevel (tid : Str) : ItemList → ItemList × Option Item
  | ItemList.nil => (ItemList.nil, none)
  | ItemList.cons h t =>
    let r := removeAtLevel tid t
    if h.id = tid then (r.1, match r.2 with | some f => some f | none => some h)
    else (ItemList.cons h r.1, r.2)

mutual
/-- The recursive map pass of findAndRemoveItem: each folder applies the
full findAndRemoveItem (level filter, then deep pass) to its children; a
folder whose subtree contained the id has its children replaced. -/
def removeDeepItem (tid : Str) : Item → Item × Option Item
  | Item.note i n c tg p l => (Item.note i n c tg p l, none)
  | Item.folder i n ch op p l =>
    let lvl := removeAtLevel tid ch
    match lvl.2 with
    | some f => (Item.folder i n lvl.1 op p l, some f)
    | none =>
      let r := removeDeepList tid ch
      match r.2 with
      | some f => (Item.folder i n r.1 op p l, some f)
      | none => (Item.folder i n ch op p l, none)
def removeDeepList (tid : Str) : ItemList → ItemList × Option Item
  | ItemList.nil => (ItemList.nil, none)
  | ItemList.cons h t =>
    let rh := removeDeepItem tid h
    let rt := removeDeepList tid t
    (ItemList.cons rh.1 rt.1, match rt.2 with | some f => some f | none => rh.2)
end

/-- src/frontend/utils/tree.ts findAndRemoveItem: remove the id at this
level if present (reporting the removed item), otherwise search every
folder's subtree. -/
def findAndRemoveItem (tid : Str) (items : ItemList) : ItemList × Option Item :=
  let lvl := removeAtLevel tid items
  match lvl.2 with
  | some f => (lvl.1, some f)
  | none => removeDeepList tid items

/-! ## useNotes.ts renameItem, localStorage branch (renameRecursive)

The closure renameRecursive(items, parentPath) rewrites the item whose id
matches: new base name (display name plus the `.md` suffix for notes), new
path under `parentPath`, new derived id, and recurses into the renamed
folder's children with the new path.  For every *other* item it either
recurses into folder children passing that folder's own (old) path, or
returns the item unchanged — in particular the path/id of an item that is
not the rename target is never rewritten. -/

mutual
def renameRecItem (tid newName parentPath : Str) : Item → Item
  | Item.note i n c tg p l =>
    if i = tid then
      let newPath := joinPath parentPath (newName ++ ".md".data)
      Item.note ("note:".data ++ newPath) newName c tg newPath l
    else Item.note i n c tg p l
  | Item.folder i n ch op p l =>
    if i = tid then
      let newPath := joinPath parentPath newName
      Item.folder ("folder:".data ++ newPath) newName (renameRecursive tid newName newPath ch) op newPath l
    else Item.folder i n (renameRecursive tid newName p ch) op p l
def renameRecursive (tid newName parentPath : Str) : ItemList → ItemList
  | ItemList.nil => ItemList.nil
  | ItemList.cons h t =>
    ItemList.cons (renameRecItem tid newName parentPath h) (renameRecursive tid newName parentPath t)
end

/-- useNotes.ts renameItem (outer guard plus localStorage branch): no-op
when the item is missing or the name is unchanged; otherwise applies
renameRecursive from the root and returns the new tree together with the
new id computed from the found item's parent path. -/
def renameItemLS (fs : ItemList) (tid newName : Str) : Option (ItemList × Str) :=
  match findItemAndParent fs tid with
  | (some item, parent) =>
    if item.name = newName then none
    else
      let parentPath := match parent with | some p => p.path | none => []
      let newBaseName := if item.isFolder then newName else newName ++ ".md".data
      let newPath := joinPath parentPath newBaseName
      let newId := if item.isFolder then "folder:".data ++ newPath else "note:".data ++ newPath
      some (renameRecursive tid newName [] fs, newId)
  | (none, _) => none

/-! ## useNotes.ts moveItem, localStorage branch -/

mutual
/-- useNotes.ts moveItem localStorage branch, updatePathsAndIdsRecursive:
the whole-subtree path/id rewrite applied to the moved item. -/
def updatePathsAndIds (newParentPath : Str) : Item → Item
  | Item.note _ n c tg _ l =>
    let newPath := joinPath newParentPath (n ++ ".md".data)
    Item.note ("note:".data ++ newPath) n c tg newPath l
  | Item.folder _ n ch op _ l =>
    let newPath := joinPath newParentPath n
    Item.folder ("folder:".data ++ newPath) n (updatePathsAndIdsList newPath ch) op newPath l
def updatePathsAndIdsList (newParentPath : Str) : ItemList → ItemList
  | ItemList.nil => ItemList.nil
  | ItemList.cons h t =>
    ItemList.cons (updatePathsAndIds newParentPath h) (updatePathsAndIdsList newParentPath t)
end

/-- Observable outcome of moveItem up to the point where backend I/O (or
the localStorage persistence write) would happen: `silentNoop` is an early
return with no notification, no backend call and no tree change;
`rejectedError` is a return surfacing the "Cannot move a folder into one
of its own subfolders." error toast, again without any backend call or
tree change; `moved` means the guards passed and the localStorage tree
transformation was applied. -/
inductive MoveOutcome where
  | silentNoop
  | rejectedError
  | moved
deriving DecidableEq

/-- useNotes.ts moveItem: the guard sequence (self-move early return,
lookup failures, non-folder target, folder-into-own-subtree prefix check)
followed by the localStorage-branch tree transformation (remove the
source, rewrite its subtree paths under the target, insert into the
target). -/
def moveItemLS (fs : ItemList) (itemId targetFolderId : Str) : ItemList × MoveOutcome :=
  if itemId = targetFolderId then (fs, MoveOutcome.silentNoop)
  else
    match (findItemAndParent fs itemId).1 with
    | none => (fs, MoveOutcome.silentNoop)
    | some sourceItem =>
      match (findItemAndParent fs targetFolderId).1 with
      | none => (fs, MoveOutcome.silentNoop)
      | some targetFolder =>
        if !targetFolder.isFolder then (fs, MoveOutcome.silentNoop)
        else if sourceItem.isFolder &&
            (jsStartsWith targetFolder.path sourceItem.path || sourceItem.id = targetFolderId) then
          (fs, MoveOutcome.rejectedError)
        else
          match (splitOnChar '/' sourceItem.path).getLast? with
          | none => (fs, MoveOutcome.silentNoop)
          | some sourceName =>
            if sourceName = [] then (fs, MoveOutcome.silentNoop)
            else
              match (findItemAndParent fs targetFolderId).1 with
              | none => (fs, MoveOutcome.silentNoop)
              | some tF =>
                if !tF.isFolder then (fs, MoveOutcome.silentNoop)
                else
                  match (findAndRemoveItem itemId fs).2 with
                  | none => (fs, MoveOutcome.silentNoop)
                  | some foundItem =>
                    (addItemToFolder tF.id
                      (ItemList.single (updatePathsAndIds tF.path foundItem))
                      (findAndRemoveItem itemId fs).1,
                     MoveOutcome.moved)

/-! ## useNotes.ts addItem (parent resolution and localStorage branch) -/

inductive NewKind where
  | knote
  | kfolder
deriving DecidableEq

/-- useNotes.ts addItem parent resolution: no active item targets the
root; an active folder targets itself; anything else (a note, or an id
that is no longer found) targets the active item's parent. -/
def resolveAddTarget (fs : ItemList) (activeItemId : Option Str) : Option Item :=
  match activeItemId with
  | none => none
  | some aid =>
    match findItemAndParent fs aid with
    | (some activeItem, activeItemParent) =>
      if activeItem.isFolder then some activeItem else activeItemParent
    | (none, activeItemParent) => activeItemParent

/-- useNotes.ts addItem, localStorage branch: builds the new item (fixed
display name, path under the resolved parent, derived id) and inserts it
via addItemToFolder, or appends and re-sorts at root level when no parent
was resolved.  Returns the new item together with the new tree. -/
def addItemLS (kind : NewKind) (activeItemId : Option Str) (fs : ItemList) : Item × ItemList :=
  let newItemName : Str := match kind with
    | NewKind.knote => "New Note".data
    | NewKind.kfolder => "New Folder".data
  let targetParent := resolveAddTarget fs activeItemId
  let parentPath : Str := match targetParent with | some tp => tp.path | none => []
  let newItemBaseName : Str := match kind with
    | NewKind.knote => newItemName ++ ".md".data
    | NewKind.kfolder => newItemName
  let newItemPath := joinPath parentPath newItemBaseName
  let newItem : Item := match kind with
    | NewKind.knote => Item.note ("note:".data ++ newItemPath) newItemName [] [] newItemPath true
    | NewKind.kfolder => Item.folder ("folder:".data ++ newItemPath) newItemName ItemList.nil true newItemPath false
  match targetParent with
  | some tp => (newItem, addItemToFolder tp.id (ItemList.single newItem) fs)
  | none => (newItem, sortItems (fs.append (ItemList.single newItem)))

/-! ## Invariant predicates over the tree -/

mutual
/-- No folder anywhere in the item's subtree carries the given id. -/
def noFolderIdItem (target : Str) : Item → Bool
  | Item.note _ _ _ _ _ _ => true
  | Item.folder i _ ch _ _ _ => !(i == target) && noFolderIdList target ch
def noFolderIdList (target : Str) : ItemList → Bool
  | ItemList.nil => true
  | ItemList.cons h t => noFolderIdItem target h && noFolderIdList target t
end

/-- Adjacent-pairs comparator check on one level: together with the
totality/transitivity of the comparator this is the "children are in
comparator order" invariant. -/
def chainLe : ItemList → Bool
  | ItemList.nil => true
  | ItemList.cons _ ItemList.nil => true
  | ItemList.cons a (ItemList.cons b t) => itemLe a b && chainLe (ItemList.cons b t)

mutual
/-- The children-sort invariant (folders before notes, then name order)
holding at every folder of the subtree. -/
def sortedDeepItem : Item → Bool
  | Item.note _ _ _ _ _ _ => true
  | Item.folder _ _ ch _ _ _ => chainLe ch && sortedDeepList ch
def sortedDeepList : ItemList → Bool
  | ItemList.nil => true
  | ItemList.cons h t => sortedDeepItem h && sortedDeepList t
end

mutual
/-- All nodes of an item's subtree, the item itself first (depth first). -/
def deepItem : Item → List Item
  | Item.note i n c tg p l => [Item.note i n c tg p l]
  | Item.folder i n ch op p l => Item.folder i n ch op p l :: deepList ch
def deepList : ItemList → List Item
  | ItemList.nil => []
  | ItemList.cons h t => deepItem h ++ deepList t
end

mutual
/-- Path consistency (the §3 data-model invariant restricted to paths):
every item's path is its parent's path joined with its base name (display
name plus `.md` for notes), recursively. -/
def pathConsistentItem (parentPath : Str) : Item → Bool
  | Item.note _ n _ _ p _ => p == joinPath parentPath (n ++ ".md".data)
  | Item.folder _ n ch _ p _ => (p == joinPath parentPath n) && pathConsistentList p ch
def pathConsistentList (parentPath : Str) : ItemList → Bool
  | ItemList.nil => true
  | ItemList.cons h t => pathConsistentItem parentPath h && pathConsistentList parentPath t
end

/-! ## Concrete trees used in evaluations -/

/-- The spec's own rename scenario: folder `Work` containing the note
`Work/Todo.md`. -/
def workTree : ItemList :=
  ItemList.cons
    (Item.folder "folder:Work".data "Work".data
      (ItemList.cons
        (Item.note "note:Work/Todo.md".data "Todo".data "todo body".data [] "Work/Todo.md".data true)
        ItemList.nil)
      false "Work".data false)
    ItemList.nil

/-- A folder whose two note children are in name order. -/
def abTree : ItemList :=
  ItemList.cons
    (Item.folder "folder:F".data "F".data
      (ItemList.cons
        (Item.note "note:F/a.md".data "a".data [] [] "F/a.md".data true)
        (ItemList.cons
          (Item.note "note:F/z.md".data "z".data [] [] "F/z.md".data true)
          ItemList.nil))
      false "F".data false)
    ItemList.nil

/-! ## C10: insertion into a missing folder id is a silent no-op -/

mutual
theorem addToFolderItem_noop (target : Str) (xs : ItemList) :
    ∀ i : Item, noFolderIdItem target i = true → addToFolderItem target xs i = i
  | Item.note a b c d e f, _ => rfl
  | Item.folder i n ch op p l, h => by
    simp only [noFolderIdItem, Bool.and_eq_true, Bool.not_eq_true', beq_eq_false_iff_ne, ne_eq] at h
    simp only [addToFolderItem, if_neg h.1, addItemToFolder_noop target xs ch h.2]
theorem addItemToFolder_noop (target : Str) (xs : ItemList) :
    ∀ ts : ItemList, noFolderIdList target ts = true → addItemToFolder target xs ts = ts
  | ItemList.nil, _ => rfl
  | ItemList.cons h t, hh => by
    simp only [noFolderIdList, Bool.and_eq_true] at hh
    simp only [addItemToFolder, addToFolderItem_noop target xs h hh.1,
      addItemToFolder_noop target xs t hh.2]
end

/-- C10: for every tree and target id, if no Folder in the tree has that
id, addItemToFolder returns the input tree unchanged — the insertion is
silently dropped (the function is total and signals no error), and in
particular none of the items to be inserted appear in the result. -/
theorem c10_insert_missing_folder_noop (ts : ItemList) (target : Str) (xs : ItemList)
    (h : noFolderIdList target ts = true) :
    addItemToFolder target xs ts = ts :=
  addItemToFolder_noop target xs ts h

/-- Witness for C10 at a concrete tree: `workTree` has no folder with id
`folder:Nope`, and inserting a note under that id returns `workTree`
itself. -/
theorem c10_insert_missing_folder_noop_witness :
    noFolderIdList "folder:Nope".data workTree = true ∧
      addItemToFolder "folder:Nope".data
        (ItemList.single (Item.note "note:x.md".data "x".data [] [] "x.md".data true)) workTree
        = workTree :=
  ⟨by decide,
   c10_insert_missing_folder_noop workTree "folder:Nope".data
     (ItemList.single (Item.note "note:x.md".data "x".data [] [] "x.md".data true)) (by decide)⟩

/-! ## C1: what the localStorage rename actually does to descendants -/

/-- C1: the claim (descendant paths are rewritten by replacing the old
prefix and descendant ids re-derived, N+1 updates in total) fails on the
localStorage branch: renameRecursive rewrites only the renamed folder's
own name/path/id and leaves every descendant's path and id untouched.  At
the spec's own scenario (rename folder `Work`, containing
`Work/Todo.md`, to `Projects`) the child note keeps path `Work/Todo.md`
and id `note:Work/Todo.md` instead of the claimed `Projects/Todo.md` /
`note:Projects/Todo.md`. -/
theorem c1_rename_leaves_descendant_paths_stale :
    renameRecursive "folder:Work".data "Projects".data [] workTree =
      ItemList.cons
        (Item.folder "folder:Projects".data "Projects".data
          (ItemList.cons
            (Item.note "note:Work/Todo.md".data "Todo".data "todo body".data []
              "Work/Todo.md".data true)
            ItemList.nil)
          false "Projects".data false)
        ItemList.nil
    ∧ "Work/Todo.md".data ≠ "Projects/Todo.md".data
    ∧ "note:Work/Todo.md".data ≠ "note:Projects/Todo.md".data :=
  ⟨rfl, by decide, by decide⟩

/-! ## C2: the localStorage rename does not re-establish the sort order -/

/-- C2: the sort invariant is not re-established by the localStorage
rename branch: renaming the note `a` (of folder `F` with children
`a`, `z` in name order) to `zz` leaves the renamed note in its old first
position, so the folder's children `zz`, `z` violate the name order that
sortFileSystemItems prescribes. -/
theorem c2_rename_breaks_sort_invariant :
    sortedDeepList abTree = true ∧
      sortedDeepList (renameRecursive "note:F/a.md".data "zz".data [] abTree) = false :=
  ⟨by decide, by decide⟩

/-! ## Membership facts about the tree operations -/

theorem mem_topList_insertSorted (x z : Item) :
    ∀ l : ItemList, z ∈ topList (insertSorted x l) ↔ z = x ∨ z ∈ topList l
  | ItemList.nil => by simp [insertSorted, ItemList.single, topList]
  | ItemList.cons y ys => by
    by_cases h : itemLe y x = true
    · simp only [insertSorted, h, if_true, topList, List.mem_cons,
        mem_topList_insertSorted x z ys]
      tauto
    · simp only [insertSorted, h, if_false, Bool.false_eq_true, topList, List.mem_cons]

theorem mem_topList_sortItems (z : Item) :
    ∀ l : ItemList, z ∈ topList (sortItems l) ↔ z ∈ topList l
  | ItemList.nil => Iff.rfl
  | ItemList.cons h t => by
    simp only [sortItems, mem_topList_insertSorted h z (sortItems t),
      mem_topList_sortItems z t, topList, List.mem_cons]

theorem topList_append : ∀ l m : ItemList, topList (l.append m) = topList l ++ topList m
  | ItemList.nil, m => rfl
  | ItemList.cons h t, m => by
    simp only [ItemList.append, topList, topList_append t m, List.cons_append]

theorem mem_deepList_iff (z : Item) :
    ∀ l : ItemList, z ∈ deepList l ↔ ∃ t, t ∈ topList l ∧ z ∈ deepItem t
  | ItemList.nil => by simp [deepList, topList]
  | ItemList.cons h t => by
    simp only [deepList, topList, List.mem_append, mem_deepList_iff z t, List.mem_cons]
    constructor
    · rintro (hz | ⟨u, hu, hz⟩)
      · exact ⟨h, Or.inl rfl, hz⟩
      · exact ⟨u, Or.inr hu, hz⟩
    · rintro ⟨u, hu | hu, hz⟩
      · subst hu; exact Or.inl hz
      · exact Or.inr ⟨u, hu, hz⟩

theorem mem_deepList_sortItems (z : Item) (l : ItemList) :
    z ∈ deepList (sortItems l) ↔ z ∈ deepList l := by
  simp only [mem_deepList_iff]
  constructor
  · rintro ⟨t, ht, hz⟩
    exact ⟨t, (mem_topList_sortItems t l).mp ht, hz⟩
  · rintro ⟨t, ht, hz⟩
    exact ⟨t, (mem_topList_sortItems t l).mpr ht, hz⟩

theorem self_mem_deepItem : ∀ i : Item, i ∈ deepItem i := by
  intro i
  cases i <;> simp [deepItem]

theorem mem_deepItem_cases {z : Item} :
    ∀ i : Item, z ∈ deepItem i → z = i ∨ z ∈ deepList i.children := by
  intro i
  cases i with
  | note a b c d e f => simp [deepItem, Item.children, deepList]
  | folder a b ch d e f =>
    simp only [deepItem, List.mem_cons, Item.children]
    tauto

theorem deepList_append : ∀ l m : ItemList, deepList (ItemList.append l m) = deepList l ++ deepList m
  | ItemList.nil, m => rfl
  | ItemList.cons h t, m => by
    simp only [ItemList.append, deepList, deepList_append t m, List.append_assoc]

mutual
/-- No item anywhere in the subtree carries the given id. -/
def noDeepIdItem (q : Str) : Item → Bool
  | Item.note i _ _ _ _ _ => !(i == q)
  | Item.folder i _ ch _ _ _ => !(i == q) && noDeepIdList q ch
def noDeepIdList (q : Str) : ItemList → Bool
  | ItemList.nil => true
  | ItemList.cons h t => noDeepIdItem q h && noDeepIdList q t
end

mutual
theorem noDeepIdItem_spec (q : Str) :
    ∀ i : Item, noDeepIdItem q i = true → ∀ z ∈ deepItem i, Item.id z ≠ q
  | Item.note a b c d e f, h => by
    simp only [noDeepIdItem, Bool.not_eq_true', beq_eq_false_iff_ne, ne_eq] at h
    intro z hz
    simp only [deepItem, List.mem_singleton] at hz
    subst hz
    exact h
  | Item.folder i n ch op p l, h => by
    simp only [noDeepIdItem, Bool.and_eq_true, Bool.not_eq_true', beq_eq_false_iff_ne, ne_eq] at h
    intro z hz
    rcases mem_deepItem_cases _ hz with rfl | hm
    · exact h.1
    · exact noDeepIdList_spec q ch h.2 z (by simpa [Item.children] using hm)
theorem noDeepIdList_spec (q : Str) :
    ∀ l : ItemList, noDeepIdList q l = true → ∀ z ∈ deepList l, Item.id z ≠ q
  | ItemList.nil, _ => by intro z hz; simp [deepList] at hz
  | ItemList.cons h t, hh => by
    simp only [noDeepIdList, Bool.and_eq_true] at hh
    intro z hz
    simp only [deepList, List.mem_append] at hz
    rcases hz with hz | hz
    · exact noDeepIdItem_spec q h hh.1 z hz
    · exact noDeepIdList_spec q t hh.2 z hz
end

mutual
theorem findInItem_sound (tid : Str) :
    ∀ (par : Option Item) (i : Item) (y : Item),
      (findInItem tid par i).1 = some y → y ∈ deepItem i ∧ Item.id y = tid
  | par, Item.note a b c d e f, y => by
    by_cases h : a = tid
    · simp only [findInItem, if_pos h]
      intro hy
      obtain rfl : Item.note a b c d e f = y := Option.some.inj hy
      exact ⟨self_mem_deepItem _, h⟩
    · simp only [findInItem, if_neg h]
      intro hy
      simp at hy
  | par, Item.folder i n ch op p l, y => by
    by_cases h : i = tid
    · simp only [findInItem, if_pos h]
      intro hy
      obtain rfl : Item.folder i n ch op p l = y := Option.some.inj hy
      exact ⟨self_mem_deepItem _, h⟩
    · simp only [findInItem, if_neg h]
      intro hy
      obtain ⟨hm, hid⟩ := findInList_sound tid (some (Item.folder i n ch op p l)) ch y hy
      refine ⟨?_, hid⟩
      simp only [deepItem, List.mem_cons]
      exact Or.inr hm
theorem findInList_sound (tid : Str) :
    ∀ (par : Option Item) (l : ItemList) (y : Item),
      (findInList tid par l).1 = some y → y ∈ deepList l ∧ Item.id y = tid
  | par, ItemList.nil, y => by
    intro hy
    simp [findInList] at hy
  | par, ItemList.cons h t, y => by
    intro hy
    rw [findInList] at hy
    rcases hfi : findInItem tid par h with ⟨r1, rp⟩
    rw [hfi] at hy
    cases r1 with
    | some r =>
      simp only at hy
      have hsome : (findInItem tid par h).1 = some y := by rw [hfi]; exact hy
      obtain ⟨hm, hid⟩ := findInItem_sound tid par h y hsome
      exact ⟨by simp only [deepList, List.mem_append]; exact Or.inl hm, hid⟩
    | none =>
      simp only at hy
      obtain ⟨hm, hid⟩ := findInList_sound tid par t y hy
      exact ⟨by simp only [deepList, List.mem_append]; exact Or.inr hm, hid⟩
end

mutual
theorem findInItem_found (tid : Str) (X : Item) :
    ∀ (par : Option Item) (i : Item),
      (∃ y ∈ deepItem i, Item.id y = tid) →
      (∀ z ∈ deepItem i, Item.id z = tid → z = X) →
      (findInItem tid par i).1 = some X
  | par, Item.note a b c d e f => by
    intro hex hall
    obtain ⟨y, hy, hid⟩ := hex
    simp only [deepItem, List.mem_singleton] at hy
    subst hy
    have ha : a = tid := hid
    have hX : Item.note a b c d e f = X := hall _ (self_mem_deepItem _) hid
    simp [findInItem, if_pos ha, hX]
  | par, Item.folder i n ch op p l => by
    intro hex hall
    by_cases h : i = tid
    · have hX : Item.folder i n ch op p l = X := hall _ (self_mem_deepItem _) h
      simp [findInItem, if_pos h, hX]
    · obtain ⟨y, hy, hid⟩ := hex
      have hy' : y ∈ deepList ch := by
        rcases mem_deepItem_cases _ hy with rfl | hm
        · exact absurd hid h
        · simpa [Item.children] using hm
      simp only [findInItem, if_neg h]
      exact findInList_found tid X (some (Item.folder i n ch op p l)) ch ⟨y, hy', hid⟩
        (fun z hz hzid => hall z (by simp only [deepItem, List.mem_cons]; exact Or.inr hz) hzid)
theorem findInList_found (tid : Str) (X : Item) :
    ∀ (par : Option Item) (l : ItemList),
      (∃ y ∈ deepList l, Item.id y = tid) →
      (∀ z ∈ deepList l, Item.id z = tid → z = X) →
      (findInList tid par l).1 = some X
  | par, ItemList.nil => by
    rintro ⟨y, hy, _⟩ _
    simp [deepList] at hy
  | par, ItemList.cons h t => by
    intro hex hall
    by_cases hh : ∃ y ∈ deepItem h, Item.id y = tid
    · have hfound := findInItem_found tid X par h hh
        (fun z hz hzid => hall z (by simp only [deepList, List.mem_append]; exact Or.inl hz) hzid)
      rw [findInList]
      rcases hfi : findInItem tid par h with ⟨r1, rp⟩
      rw [hfi] at hfound
      cases r1 with
      | some r =>
        simp only at hfound ⊢
        exact hfound
      | none => simp at hfound
    · push_neg at hh
      have hnone : (findInItem tid par h).1 = none := by
        rcases hq : (findInItem tid par h).1 with _ | y
        · rfl
        · obtain ⟨hm, hid⟩ := findInItem_sound tid par h y hq
          exact absurd hid (hh y hm)
      obtain ⟨y, hy, hid⟩ := hex
      have hyt : y ∈ deepList t := by
        simp only [deepList, List.mem_append] at hy
        rcases hy with hy | hy
        · exact absurd hid (hh y hy)
        · exact hy
      rw [findInList]
      rcases hfi : findInItem tid par h with ⟨r1, rp⟩
      rw [hfi] at hnone
      cases r1 with
      | some r => simp at hnone
      | none =>
        simp only
        exact findInList_found tid X par t ⟨y, hyt, hid⟩
          (fun z hz hzid => hall z (by simp only [deepList, List.mem_append]; exact Or.inr hz) hzid)
end

mutual
theorem findInItem_parent (tid : Str) :
    ∀ (par : Option Item) (i : Item) (g : Item),
      (findInItem tid par i).2 = some g →
      (g ∈ deepItem i ∧ g.isFolder = true) ∨ par = some g
  | par, Item.note a b c d e f, g => by
    by_cases h : a = tid
    · simp only [findInItem, if_pos h]
      intro hg
      exact Or.inr hg
    · simp only [findInItem, if_neg h]
      intro hg
      simp at hg
  | par, Item.folder i n ch op p l, g => by
    by_cases h : i = tid
    · simp only [findInItem, if_pos h]
      intro hg
      exact Or.inr hg
    · simp only [findInItem, if_neg h]
      intro hg
      rcases findInList_parent tid (some (Item.folder i n ch op p l)) ch g hg with ⟨hm, hf⟩ | hp
      · exact Or.inl ⟨by simp only [deepItem, List.mem_cons]; exact Or.inr hm, hf⟩
      · obtain rfl : Item.folder i n ch op p l = g := Option.some.inj hp
        exact Or.inl ⟨self_mem_deepItem _, rfl⟩
theorem findInList_parent (tid : Str) :
    ∀ (par : Option Item) (l : ItemList) (g : Item),
      (findInList tid par l).2 = some g →
      (g ∈ deepList l ∧ g.isFolder = true) ∨ par = some g
  | par, ItemList.nil, g => by
    intro hg
    simp [findInList] at hg
  | par, ItemList.cons h t, g => by
    intro hg
    rw [findInList] at hg
    rcases hfi : findInItem tid par h with ⟨r1, rp⟩
    rw [hfi] at hg
    cases r1 with
    | some r =>
      simp only at hg
      have : (findInItem tid par h).2 = some g := by rw [hfi]; exact hg
      rcases findInItem_parent tid par h g this with ⟨hm, hf⟩ | hp
      · exact Or.inl ⟨by simp only [deepList, List.mem_append]; exact Or.inl hm, hf⟩
      · exact Or.inr hp
    | none =>
      simp only at hg
      rcases findInList_parent tid par t g hg with ⟨hm, hf⟩ | hp
      · exact Or.inl ⟨by simp only [deepList, List.mem_append]; exact Or.inr hm, hf⟩
      · exact Or.inr hp
end

mutual
theorem deep_addToFolderItem_ids (target : Str) (xs : ItemList) :
    ∀ (i : Item) (z : Item), z ∈ deepItem (addToFolderItem target xs i) →
      (∃ y ∈ deepItem i, Item.id z = Item.id y) ∨ z ∈ deepList xs
  | Item.note a b c d e f, z => by
    intro hz
    simp only [addToFolderItem] at hz
    exact Or.inl ⟨z, hz, rfl⟩
  | Item.folder i n ch op p l, z => by
    intro hz
    by_cases h : i = target
    · simp only [addToFolderItem, if_pos h] at hz
      rcases mem_deepItem_cases _ hz with rfl | hm
      · exact Or.inl ⟨Item.folder i n ch op p l, self_mem_deepItem _, rfl⟩
      · simp only [Item.children] at hm
        rw [mem_deepList_sortItems, deepList_append, List.mem_append] at hm
        rcases hm with hm | hm
        · exact Or.inl ⟨z, by simp only [deepItem, List.mem_cons]; exact Or.inr hm, rfl⟩
        · exact Or.inr hm
    · simp only [addToFolderItem, if_neg h] at hz
      rcases mem_deepItem_cases _ hz with rfl | hm
      · exact Or.inl ⟨Item.folder i n ch op p l, self_mem_deepItem _, rfl⟩
      · simp only [Item.children] at hm
        rcases deep_addItemToFolder_ids target xs ch z hm with ⟨y, hy, hid⟩ | hx
        · exact Or.inl ⟨y, by simp only [deepItem, List.mem_cons]; exact Or.inr hy, hid⟩
        · exact Or.inr hx
theorem deep_addItemToFolder_ids (target : Str) (xs : ItemList) :
    ∀ (l : ItemList) (z : Item), z ∈ deepList (addItemToFolder target xs l) →
      (∃ y ∈ deepList l, Item.id z = Item.id y) ∨ z ∈ deepList xs
  | ItemList.nil, z => by
    intro hz
    simp [addItemToFolder, deepList] at hz
  | ItemList.cons h t, z => by
    intro hz
    simp only [addItemToFolder, deepList, List.mem_append] at hz
    rcases hz with hz | hz
    · rcases deep_addToFolderItem_ids target xs h z hz with ⟨y, hy, hid⟩ | hx
      · exact Or.inl ⟨y, by simp only [deepList, List.mem_append]; exact Or.inl hy, hid⟩
      · exact Or.inr hx
    · rcases deep_addItemToFolder_ids target xs t z hz with ⟨y, hy, hid⟩ | hx
      · exact Or.inl ⟨y, by simp only [deepList, List.mem_append]; exact Or.inr hy, hid⟩
      · exact Or.inr hx
end

mutual
theorem mem_addToFolderItem_of (target : Str) (xs : ItemList) (x : Item) (hx : x ∈ topList xs) :
    ∀ i : Item, noFolderIdItem target i = false → x ∈ deepItem (addToFolderItem target xs i)
  | Item.note a b c d e f, hp => by simp [noFolderIdItem] at hp
  | Item.folder i n ch op p l, hp => by
    by_cases h : i = target
    · simp only [addToFolderItem, if_pos h, deepItem, List.mem_cons]
      refine Or.inr ?_
      rw [mem_deepList_sortItems]
      rw [mem_deepList_iff]
      refine ⟨x, ?_, self_mem_deepItem _⟩
      rw [topList_append, List.mem_append]
      exact Or.inr hx
    · have hch : noFolderIdList target ch = false := by
        simp only [noFolderIdItem, Bool.and_eq_false_iff, Bool.not_eq_false', beq_iff_eq] at hp
        rcases hp with hp | hp
        · exact absurd hp h
        · exact hp
      simp only [addToFolderItem, if_neg h, deepItem, List.mem_cons]
      exact Or.inr (mem_addItemToFolder_of target xs x hx ch hch)
theorem mem_addItemToFolder_of (target : Str) (xs : ItemList) (x : Item) (hx : x ∈ topList xs) :
    ∀ l : ItemList, noFolderIdList target l = false → x ∈ deepList (addItemToFolder target xs l)
  | ItemList.nil, hp => by simp [noFolderIdList] at hp
  | ItemList.cons h t, hp => by
    by_cases hh : noFolderIdItem target h = false
    · simp only [addItemToFolder, deepList, List.mem_append]
      exact Or.inl (mem_addToFolderItem_of target xs x hx h hh)
    · have ht : noFolderIdList target t = false := by
        simp only [noFolderIdList, Bool.and_eq_false_iff] at hp
        rcases hp with hp | hp
        · exact absurd hp hh
        · exact hp
      simp only [addItemToFolder, deepList, List.mem_append]
      exact Or.inr (mem_addItemToFolder_of target xs x hx t ht)
end

/-! ## C5: find after insert -/

/-- A note used to exhibit the failure of the unrestricted find-insert
law. -/
def probeNote : Item := Item.note "note:x.md".data "x".data [] [] "x.md".data true

/-- C5 counterexample: the law `find(insertInto(T, P, X), X.id).item == X`
fails without further assumptions.  With the empty tree T and any parent
id P, addItemToFolder drops the insertion (no folder matches P), so the
lookup returns nothing rather than X. -/
theorem c5_find_insert_counterexample :
    (findItemAndParent (addItemToFolder "folder:P".data (ItemList.single probeNote) ItemList.nil)
        (Item.id probeNote)).1 = none
    ∧ (none : Option Item) ≠ some probeNote :=
  ⟨rfl, by simp⟩

/-- C5 (amended): if the tree does contain a Folder with id P, no existing
item of the tree carries X's id, and X's id does not recur among X's own
descendants, then looking up X.id after insertion returns X itself. -/
theorem c5_find_insert_amended (ts : ItemList) (P : Str) (X : Item)
    (h1 : noFolderIdList P ts = false)
    (h2 : noDeepIdList (Item.id X) ts = true)
    (h3 : noDeepIdList (Item.id X) (Item.children X) = true) :
    (findItemAndParent (addItemToFolder P (ItemList.single X) ts) (Item.id X)).1 = some X := by
  apply findInList_found
  · exact ⟨X,
      mem_addItemToFolder_of P (ItemList.single X) X
        (by simp [ItemList.single, topList]) ts h1,
      rfl⟩
  · intro z hz hzid
    rcases deep_addItemToFolder_ids P (ItemList.single X) ts z hz with ⟨y, hy, hid⟩ | hxm
    · exact absurd (hzid ▸ hid.symm) (noDeepIdList_spec _ ts h2 y hy)
    · have hzX : z ∈ deepItem X := by
        simpa [ItemList.single, deepList] using hxm
      rcases mem_deepItem_cases _ hzX with rfl | hm
      · rfl
      · exact absurd hzid (noDeepIdList_spec _ _ h3 z hm)

/-- Witness for the amended C5 law at a concrete tree: insert a fresh note
under the folder `folder:F` of `abTree` and find it again. -/
theorem c5_find_insert_amended_witness :
    noFolderIdList "folder:F".data abTree = false ∧
      noDeepIdList (Item.id probeNote) abTree = true ∧
      noDeepIdList (Item.id probeNote) (Item.children probeNote) = true ∧
      (findItemAndParent (addItemToFolder "folder:F".data (ItemList.single probeNote) abTree)
          (Item.id probeNote)).1 = some probeNote :=
  ⟨by decide, by decide, by decide,
   c5_find_insert_amended abTree "folder:F".data probeNote (by decide) (by decide) (by decide)⟩

/-! ## C4: moving a folder into its own subtree -/

theorem joinPath_pre (sp b : Str) : sp <+: joinPath sp b := by
  by_cases h : sp = []
  · subst h
    exact List.nil_prefix
  · simp only [joinPath, if_neg h]
    exact List.prefix_append sp ('/' :: b)

mutual
theorem consistItem_deep_pre :
    ∀ (sp : Str) (i : Item), pathConsistentItem sp i = true →
      ∀ y ∈ deepItem i, sp <+: Item.path y
  | sp, Item.note a b c d e f, h => by
    simp only [pathConsistentItem, beq_iff_eq] at h
    intro y hy
    simp only [deepItem, List.mem_singleton] at hy
    subst hy
    simp only [Item.path, h]
    exact joinPath_pre sp (b ++ ".md".data)
  | sp, Item.folder i n ch op p l, h => by
    simp only [pathConsistentItem, Bool.and_eq_true, beq_iff_eq] at h
    intro y hy
    rcases mem_deepItem_cases _ hy with rfl | hm
    · simp only [Item.path, h.1]
      exact joinPath_pre sp n
    · have hp : p <+: Item.path y :=
        consistList_deep_pre p ch h.2 y (by simpa [Item.children] using hm)
      have hsp : sp <+: p := by
        rw [h.1]
        exact joinPath_pre sp n
      exact hsp.trans hp
theorem consistList_deep_pre :
    ∀ (sp : Str) (l : ItemList), pathConsistentList sp l = true →
      ∀ y ∈ deepList l, sp <+: Item.path y
  | sp, ItemList.nil, _ => by
    intro y hy
    simp [deepList] at hy
  | sp, ItemList.cons h t, hh => by
    simp only [pathConsistentList, Bool.and_eq_true] at hh
    intro y hy
    simp only [deepList, List.mem_append] at hy
    rcases hy with hy | hy
    · exact consistItem_deep_pre sp h hh.1 y hy
    · exact consistList_deep_pre sp t hh.2 y hy
end

mutual
theorem consistItem_at_deep :
    ∀ (sp : Str) (i : Item) (F : Item), pathConsistentItem sp i = true →
      F ∈ deepItem i → F.isFolder = true → pathConsistentList F.path F.children = true
  | sp, Item.note a b c d e f, F, h => by
    intro hm hf
    simp only [deepItem, List.mem_singleton] at hm
    subst hm
    simp [Item.isFolder] at hf
  | sp, Item.folder i n ch op p l, F, h => by
    intro hm hf
    simp only [pathConsistentItem, Bool.and_eq_true, beq_iff_eq] at h
    rcases mem_deepItem_cases _ hm with rfl | hm'
    · simpa [Item.path, Item.children] using h.2
    · exact consistList_at_deep p ch F h.2 (by simpa [Item.children] using hm') hf
theorem consistList_at_deep :
    ∀ (sp : Str) (l : ItemList) (F : Item), pathConsistentList sp l = true →
      F ∈ deepList l → F.isFolder = true → pathConsistentList F.path F.children = true
  | sp, ItemList.nil, F, _ => by
    intro hm _
    simp [deepList] at hm
  | sp, ItemList.cons h t, F, hh => by
    intro hm hf
    simp only [pathConsistentList, Bool.and_eq_true] at hh
    simp only [deepList, List.mem_append] at hm
    rcases hm with hm | hm
    · exact consistItem_at_deep sp h F hh.1 hm hf
    · exact consistList_at_deep sp t F hh.2 hm hf
end

/-- C4 (amended): moving a Folder into one of its own proper descendant
folders is rejected by the path-prefix guard with the error notification
("Cannot move a folder into one of its own subfolders."), before any
backend call or tree mutation: the state is returned unchanged with
outcome `rejectedError`. -/
theorem c4_move_into_descendant_rejected (fs : ItemList) (srcId tgtId : Str) (S T : Item)
    (hcons : pathConsistentList [] fs = true)
    (hne : srcId ≠ tgtId)
    (hS : (findItemAndParent fs srcId).1 = some S)
    (hSf : S.isFolder = true)
    (hT : (findItemAndParent fs tgtId).1 = some T)
    (hTf : T.isFolder = true)
    (hdesc : T ∈ deepList S.children) :
    moveItemLS fs srcId tgtId = (fs, MoveOutcome.rejectedError) := by
  have hSm := findInList_sound srcId none fs S hS
  have hconsS : pathConsistentList S.path S.children = true :=
    consistList_at_deep [] fs S hcons hSm.1 hSf
  have hprefix : S.path <+: T.path :=
    consistList_deep_pre S.path S.children hconsS T hdesc
  have hstarts : jsStartsWith T.path S.path = true := by
    simpa [jsStartsWith] using List.isPrefixOf_iff_prefix.mpr hprefix
  simp only [findItemAndParent] at hS hT
  simp [moveItemLS, hne, findItemAndParent, hS, hT, hTf, hSf, hstarts]

/-- A two-level tree used for the move guard facts. -/
def nestTree : ItemList :=
  ItemList.cons
    (Item.folder "folder:A".data "A".data
      (ItemList.cons (Item.folder "folder:A/B".data "B".data ItemList.nil false "A/B".data false)
        ItemList.nil)
      false "A".data false)
    ItemList.nil

/-- C4 counterexample to "an error is surfaced" for the self-move half of
the claim: moving the folder `A` onto itself hits the very first guard
(`itemId === targetFolderId`) and returns silently — the tree is unchanged
and no backend call happens, but no error notification is produced. -/
theorem c4_self_move_is_silent :
    moveItemLS nestTree "folder:A".data "folder:A".data = (nestTree, MoveOutcome.silentNoop)
    ∧ MoveOutcome.silentNoop ≠ MoveOutcome.rejectedError :=
  ⟨rfl, by decide⟩

/-- Witness for the amended C4 statement: moving `A` into its own child
`A/B` is rejected with the error outcome and an unchanged tree. -/
theorem c4_move_into_descendant_rejected_witness :
    pathConsistentList [] nestTree = true ∧
      moveItemLS nestTree "folder:A".data "folder:A/B".data = (nestTree, MoveOutcome.rejectedError) :=
  ⟨by decide,
   c4_move_into_descendant_rejected nestTree "folder:A".data "folder:A/B".data
     (Item.folder "folder:A".data "A".data
       (ItemList.cons (Item.folder "folder:A/B".data "B".data ItemList.nil false "A/B".data false)
         ItemList.nil)
       false "A".data false)
     (Item.folder "folder:A/B".data "B".data ItemList.nil false "A/B".data false)
     (by decide) (by decide) rfl rfl rfl rfl
     (by simp [Item.children, deepList, deepItem])⟩

mutual
theorem noFolderIdItem_false_of_mem :
    ∀ (i : Item) (F : Item), F ∈ deepItem i → F.isFolder = true →
      noFolderIdItem (Item.id F) i = false
  | Item.note a b c d e f, F => by
    intro hm hf
    simp only [deepItem, List.mem_singleton] at hm
    subst hm
    simp [Item.isFolder] at hf
  | Item.folder i n ch op p l, F => by
    intro hm hf
    rcases mem_deepItem_cases _ hm with rfl | hm'
    · simp [noFolderIdItem, Item.id]
    · have := noFolderIdList_false_of_mem ch F (by simpa [Item.children] using hm') hf
      simp [noFolderIdItem, this]
theorem noFolderIdList_false_of_mem :
    ∀ (l : ItemList) (F : Item), F ∈ deepList l → F.isFolder = true →
      noFolderIdList (Item.id F) l = false
  | ItemList.nil, F => by
    intro hm _
    simp [deepList] at hm
  | ItemList.cons h t, F => by
    intro hm hf
    simp only [deepList, List.mem_append] at hm
    rcases hm with hm | hm
    · have := noFolderIdItem_false_of_mem h F hm hf
      simp [noFolderIdList, this]
    · have := noFolderIdList_false_of_mem t F hm hf
      simp [noFolderIdList, this]
end

/-! ## C6: addItem parent resolution -/

/-- C6: the parent of a newly added item is resolved exactly as the spec
states — no active item targets the root level; an active Folder becomes
the parent itself; an active Note contributes its own parent folder (the
root level when the note sits at root), so the new item can never land
inside a Note. In the folder and note-parent cases the new item ends up a
member of the resulting tree inside the resolved parent folder
(addItemToFolder with that folder's id); in the root cases the new item is
appended to the root level and the level re-sorted. -/
theorem c6_add_parent_resolution (kind : NewKind) (fs : ItemList) (aid : Str) (F N G : Item) :
    ((addItemLS kind none fs).2 =
        sortItems (fs.append (ItemList.single (addItemLS kind none fs).1)))
    ∧ ((findItemAndParent fs aid).1 = some F → F.isFolder = true →
        resolveAddTarget fs (some aid) = some F ∧
        (addItemLS kind (some aid) fs).2 =
          addItemToFolder (Item.id F) (ItemList.single (addItemLS kind (some aid) fs).1) fs ∧
        (addItemLS kind (some aid) fs).1 ∈ deepList (addItemLS kind (some aid) fs).2)
    ∧ ((findItemAndParent fs aid).1 = some N → N.isFolder = false →
        (findItemAndParent fs aid).2 = some G →
        resolveAddTarget fs (some aid) = some G ∧ G.isFolder = true ∧
        (addItemLS kind (some aid) fs).2 =
          addItemToFolder (Item.id G) (ItemList.single (addItemLS kind (some aid) fs).1) fs ∧
        (addItemLS kind (some aid) fs).1 ∈ deepList (addItemLS kind (some aid) fs).2)
    ∧ ((findItemAndParent fs aid).1 = some N → N.isFolder = false →
        (findItemAndParent fs aid).2 = none →
        resolveAddTarget fs (some aid) = none ∧
        (addItemLS kind (some aid) fs).2 =
          sortItems (fs.append (ItemList.single (addItemLS kind (some aid) fs).1))) := by
  refine ⟨?_, ?_, ?_, ?_⟩
  · cases kind <;> rfl
  · intro hF hFf
    rcases hfp : findItemAndParent fs aid with ⟨r1, r2⟩
    rw [hfp] at hF
    subst hF
    have hres : resolveAddTarget fs (some aid) = some F := by
      simp [resolveAddTarget, hfp, hFf]
    have hmemF : F ∈ deepList fs ∧ Item.id F = aid := by
      have := findInList_sound aid none fs F (by simpa [findItemAndParent] using congrArg Prod.fst hfp)
      exact this
    have hfalse : noFolderIdList (Item.id F) fs = false :=
      noFolderIdList_false_of_mem fs F hmemF.1 hFf
    refine ⟨hres, ?_, ?_⟩
    · cases kind <;> simp [addItemLS, hres]
    · have heq : (addItemLS kind (some aid) fs).2 =
          addItemToFolder (Item.id F) (ItemList.single ((addItemLS kind (some aid) fs).1)) fs := by
        cases kind <;> simp [addItemLS, hres]
      rw [heq]
      exact mem_addItemToFolder_of (Item.id F) _ _ (by simp [ItemList.single, topList]) fs hfalse
  · intro hN hNf hG
    rcases hfp : findItemAndParent fs aid with ⟨r1, r2⟩
    rw [hfp] at hN hG
    subst hN
    subst hG
    have hres : resolveAddTarget fs (some aid) = some G := by
      simp [resolveAddTarget, hfp, hNf]
    have hGf : G ∈ deepList fs ∧ G.isFolder = true := by
      have hp := findInList_parent aid none fs G
        (by simpa [findItemAndParent] using congrArg Prod.snd hfp)
      rcases hp with h | h
      · exact h
      · simp at h
    have hfalse : noFolderIdList (Item.id G) fs = false :=
      noFolderIdList_false_of_mem fs G hGf.1 hGf.2
    refine ⟨hres, hGf.2, ?_, ?_⟩
    · cases kind <;> simp [addItemLS, hres]
    · have heq : (addItemLS kind (some aid) fs).2 =
          addItemToFolder (Item.id G) (ItemList.single ((addItemLS kind (some aid) fs).1)) fs := by
        cases kind <;> simp [addItemLS, hres]
      rw [heq]
      exact mem_addItemToFolder_of (Item.id G) _ _ (by simp [ItemList.single, topList]) fs hfalse
  · intro hN hNf hG
    rcases hfp : findItemAndParent fs aid with ⟨r1, r2⟩
    rw [hfp] at hN hG
    subst hN
    subst hG
    have hres : resolveAddTarget fs (some aid) = none := by
      simp [resolveAddTarget, hfp, hNf]
    exact ⟨hres, by cases kind <;> simp [addItemLS, hres]⟩

/-- The folder of `abTree`, for use in the C6 witness. -/
def fFolder : Item :=
  Item.folder "folder:F".data "F".data
    (ItemList.cons (Item.note "note:F/a.md".data "a".data [] [] "F/a.md".data true)
      (ItemList.cons (Item.note "note:F/z.md".data "z".data [] [] "F/z.md".data true)
        ItemList.nil))
    false "F".data false

/-- A note sitting at root level, for use in the C6 witness. -/
def rootNote : Item := Item.note "note:r.md".data "r".data [] [] "r.md".data true

/-- `abTree` with a root-level note next to the folder. -/
def c6Tree : ItemList := ItemList.cons fFolder (ItemList.cons rootNote ItemList.nil)

/-- Witness for C6 at a concrete tree, exercising all four resolution
cases: active folder → that folder; active note inside the folder → the
folder; active note at root → root; no active item → root. -/
theorem c6_add_parent_resolution_witness :
    resolveAddTarget c6Tree (some "folder:F".data) = some fFolder ∧
      resolveAddTarget c6Tree (some "note:F/a.md".data) = some fFolder ∧
      resolveAddTarget c6Tree (some "note:r.md".data) = none ∧
      (addItemLS NewKind.knote none c6Tree).2 =
        sortItems (c6Tree.append (ItemList.single (addItemLS NewKind.knote none c6Tree).1)) :=
  ⟨((c6_add_parent_resolution NewKind.knote c6Tree "folder:F".data fFolder fFolder fFolder).2.1
      rfl rfl).1,
   ((c6_add_parent_resolution NewKind.knote c6Tree "note:F/a.md".data fFolder
        (Item.note "note:F/a.md".data "a".data [] [] "F/a.md".data true) fFolder).2.2.1
      rfl rfl rfl).1,
   ((c6_add_parent_resolution NewKind.knote c6Tree "note:r.md".data fFolder rootNote
        fFolder).2.2.2 rfl rfl rfl).1,
   (c6_add_parent_resolution NewKind.knote c6Tree "note:r.md".data fFolder rootNote fFolder).1⟩

/-! ## C7: toggleFolderOpen (lazy loading of a folder's unloaded notes)

The network is modelled by an oracle mapping a note path to `some
(content, tags)` for a successful fetchNoteContent (tags already
normalised by the `Array.isArray` check) or `none` for a rejected fetch.
Promise.all delivers exactly one result per requested note and the code
applies each result only to its own note, so the batch is a pure function
of the oracle. -/

/-- `child.type === 'note' && !child.isContentLoaded`. -/
def isUnloadedNote : Item → Bool
  | Item.note _ _ _ _ _ l => !l
  | Item.folder _ _ _ _ _ _ => false

/-- The filter building notesToLoad. -/
def filterUnloadedNotes : ItemList → ItemList
  | ItemList.nil => ItemList.nil
  | ItemList.cons h t =>
    if isUnloadedNote h then ItemList.cons h (filterUnloadedNotes t)
    else filterUnloadedNotes t

/-- One fetch: on success the note gets the fetched content and tags and
`isContentLoaded := true`; on failure the catch handler returns the
original note. -/
def applyFetch (oracle : Str → Option (Str × List Str)) : Item → Item
  | Item.note i nm c tg p l =>
    match oracle p with
    | some (ct, tgs) => Item.note i nm ct tgs p true
    | none => Item.note i nm c tg p l
  | Item.folder i n ch op p l => Item.folder i n ch op p l

/-- The Promise.all result: one fetch per note of notesToLoad. -/
def fetchNotes (oracle : Str → Option (Str × List Str)) : ItemList → ItemList
  | ItemList.nil => ItemList.nil
  | ItemList.cons h t => ItemList.cons (applyFetch oracle h) (fetchNotes oracle t)

/-- The entries of `new Map(updatedNotes.map(n => [n.id, n]))`. -/
def buildEntries : ItemList → List (Str × Item)
  | ItemList.nil => []
  | ItemList.cons h t => (h.id, h) :: buildEntries t

/-- JavaScript Map.get over an entry list where later entries overwrite
earlier ones. -/
def mapGetLast : List (Str × Item) → Str → Option Item
  | [], _ => none
  | (k, v) :: rest, q =>
    match mapGetLast rest q with
    | some r => some r
    | none => if k = q then some v else none

/-- `folder.children.map(child => updatedNotesMap.get(child.id) || child)`. -/
def lookupChildren (m : List (Str × Item)) : ItemList → ItemList
  | ItemList.nil => ItemList.nil
  | ItemList.cons c t => ItemList.cons ((mapGetLast m c.id).getD c) (lookupChildren m t)

/-- useNotes.ts toggleFolderOpen, opening branch with unloaded children:
returns the final folder state written by the second setFileSystem
(children re-looked-up from the fetch results and re-sorted, isOpen true,
isLoadingContents false), together with the list of requested note paths
(one fetch per unloaded child) and the list of note names for which an
error toast was shown (one per failed fetch). -/
def toggleFolderOpenLoad (oracle : Str → Option (Str × List Str)) :
    Item → Item × List Str × List Str
  | Item.folder i n ch _ p _ =>
    let notesToLoad := filterUnloadedNotes ch
    let updatedNotes := fetchNotes oracle notesToLoad
    let m := buildEntries updatedNotes
    let updatedChildren := lookupChildren m ch
    (Item.folder i n (sortItems updatedChildren) true p false,
     (topList notesToLoad).map Item.path,
     ((topList notesToLoad).filter (fun c => (oracle (Item.path c)).isNone)).map Item.name)
  | Item.note i nm c tg p l => (Item.note i nm c tg p l, [], [])

/-- The per-child effect the claim describes: an unloaded note is replaced
by its own fetch result (unchanged on failure); every other child is
untouched. -/
def specStep (oracle : Str → Option (Str × List Str)) (c : Item) : Item :=
  if isUnloadedNote c then applyFetch oracle c else c

theorem applyFetch_id (oracle : Str → Option (Str × List Str)) :
    ∀ x : Item, Item.id (applyFetch oracle x) = Item.id x := by
  intro x
  cases x with
  | note i nm c tg p l =>
    simp only [applyFetch]
    cases oracle p with
    | some r => cases r; rfl
    | none => rfl
  | folder i n ch op p l => rfl

theorem topList_filterUnloadedNotes :
    ∀ l : ItemList, topList (filterUnloadedNotes l) = (topList l).filter isUnloadedNote
  | ItemList.nil => rfl
  | ItemList.cons h t => by
    by_cases hh : isUnloadedNote h = true
    · simp [filterUnloadedNotes, topList, hh, List.filter_cons,
        topList_filterUnloadedNotes t]
    · simp [filterUnloadedNotes, topList, hh, List.filter_cons,
        topList_filterUnloadedNotes t]

theorem mapGetLast_fetch_none (oracle : Str → Option (Str × List Str)) (q : Str) :
    ∀ ns : ItemList, (∀ x ∈ topList ns, Item.id x ≠ q) →
      mapGetLast (buildEntries (fetchNotes oracle ns)) q = none
  | ItemList.nil, _ => rfl
  | ItemList.cons h t, hall => by
    have ht := mapGetLast_fetch_none oracle q t
      (fun x hx => hall x (by simp [topList]; exact Or.inr hx))
    have hh : Item.id (applyFetch oracle h) ≠ q := by
      rw [applyFetch_id]
      exact hall h (by simp [topList])
    simp [fetchNotes, buildEntries, mapGetLast, ht, hh]

theorem mapGetLast_fetch_mem (oracle : Str → Option (Str × List Str)) (q : Str) (x : Item) :
    ∀ ns : ItemList, x ∈ topList ns → Item.id x = q →
      (∀ y ∈ topList ns, Item.id y = q → y = x) →
      mapGetLast (buildEntries (fetchNotes oracle ns)) q = some (applyFetch oracle x)
  | ItemList.nil, hx, _, _ => by simp [topList] at hx
  | ItemList.cons h t, hx, hq, huniq => by
    by_cases hqt : ∃ y ∈ topList t, Item.id y = q
    · obtain ⟨y, hy, hyq⟩ := hqt
      have hyx : y = x := huniq y (by simp [topList]; exact Or.inr hy) hyq
      subst hyx
      have hrec := mapGetLast_fetch_mem oracle q y t hy hq
        (fun z hz hzq => huniq z (by simp [topList]; exact Or.inr hz) hzq)
      simp [fetchNotes, buildEntries, mapGetLast, hrec]
    · push_neg at hqt
      have hrec := mapGetLast_fetch_none oracle q t hqt
      have hxh : x = h := by
        simp only [topList, List.mem_cons] at hx
        rcases hx with rfl | hx
        · rfl
        · exact absurd hq (hqt x hx)
      subst hxh
      have hidh : Item.id (applyFetch oracle x) = q := by rw [applyFetch_id]; exact hq
      simp [fetchNotes, buildEntries, mapGetLast, hrec, hidh]

theorem topList_lookupChildren (m : List (Str × Item)) :
    ∀ l : ItemList, topList (lookupChildren m l)
      = (topList l).map (fun c => (mapGetLast m (Item.id c)).getD c)
  | ItemList.nil => rfl
  | ItemList.cons h t => by
    simp [lookupChildren, topList, topList_lookupChildren m t]

theorem topList_insertSorted_perm (x : Item) :
    ∀ l : ItemList, (topList (insertSorted x l)).Perm (x :: topList l)
  | ItemList.nil => by simp [insertSorted, ItemList.single, topList]
  | ItemList.cons y ys => by
    by_cases h : itemLe y x = true
    · simp only [insertSorted, h, if_true, topList]
      exact ((topList_insertSorted_perm x ys).cons y).trans (List.Perm.swap x y (topList ys))
    · simp only [insertSorted, h, if_false, Bool.false_eq_true, topList]
      exact List.Perm.refl _

theorem topList_sortItems_perm :
    ∀ l : ItemList, (topList (sortItems l)).Perm (topList l)
  | ItemList.nil => List.Perm.refl _
  | ItemList.cons h t => by
    simp only [sortItems, topList]
    exact (topList_insertSorted_perm h (sortItems t)).trans ((topList_sortItems_perm t).cons h)

theorem lookup_step_pointwise (oracle : Str → Option (Str × List Str)) (ch : ItemList)
    (hinj : ∀ x ∈ topList ch, ∀ y ∈ topList ch, Item.id x = Item.id y → x = y) :
    ∀ c ∈ topList ch,
      (mapGetLast (buildEntries (fetchNotes oracle (filterUnloadedNotes ch))) (Item.id c)).getD c
        = specStep oracle c := by
  intro c hc
  by_cases hu : isUnloadedNote c = true
  · have hcNL : c ∈ topList (filterUnloadedNotes ch) := by
      rw [topList_filterUnloadedNotes]
      exact List.mem_filter.mpr ⟨hc, hu⟩
    have huniq : ∀ y ∈ topList (filterUnloadedNotes ch), Item.id y = Item.id c → y = c := by
      intro y hy hyq
      have hych : y ∈ topList ch := by
        rw [topList_filterUnloadedNotes] at hy
        exact (List.mem_filter.mp hy).1
      exact hinj y hych c hc hyq
    rw [mapGetLast_fetch_mem oracle (Item.id c) c _ hcNL rfl huniq]
    simp [specStep, hu]
  · have hnone : ∀ y ∈ topList (filterUnloadedNotes ch), Item.id y ≠ Item.id c := by
      intro y hy hyq
      rw [topList_filterUnloadedNotes] at hy
      obtain ⟨hych, hyu⟩ := List.mem_filter.mp hy
      have hyc : y = c := hinj y hych c hc hyq
      subst hyc
      exact hu hyu
    rw [mapGetLast_fetch_none oracle _ _ hnone]
    simp [specStep, hu]

/-- C7: expanding a folder with unloaded note children issues exactly one
content fetch per unloaded child (the requested paths are precisely the
paths of the unloaded note children, in order), the final folder state is
open with its children equal (up to the re-sort permutation) to the
original children each transformed independently — a successful fetch
rewrites only its own note to the fetched content/tags with
isContentLoaded true, a failed fetch leaves exactly that note unchanged
(so still unloaded) — and one error toast is emitted per failed fetch,
named after the failing note, with every other child's result applied
unaffected. -/
theorem c7_lazy_load_per_item (oracle : Str → Option (Str × List Str))
    (i n : Str) (ch : ItemList) (op : Bool) (p : Str) (lo : Bool)
    (hnodup : ((topList ch).map Item.id).Nodup) :
    ∃ ch',
      (toggleFolderOpenLoad oracle (Item.folder i n ch op p lo)).1
          = Item.folder i n ch' true p false
      ∧ (topList ch').Perm ((topList ch).map (specStep oracle))
      ∧ (∀ c ∈ topList ch, specStep oracle c ∈ topList ch')
      ∧ (∀ c ∈ topList ch, isUnloadedNote c = true → oracle (Item.path c) = none →
          c ∈ topList ch' ∧ isUnloadedNote c = true)
      ∧ (∀ c ∈ topList ch, isUnloadedNote c = true → (oracle (Item.path c)).isSome →
          applyFetch oracle c ∈ topList ch')
      ∧ (toggleFolderOpenLoad oracle (Item.folder i n ch op p lo)).2.1
          = ((topList ch).filter isUnloadedNote).map Item.path
      ∧ (toggleFolderOpenLoad oracle (Item.folder i n ch op p lo)).2.2
          = (((topList ch).filter isUnloadedNote).filter
              (fun c => (oracle (Item.path c)).isNone)).map Item.name := by
  have hinj : ∀ x ∈ topList ch, ∀ y ∈ topList ch, Item.id x = Item.id y → x = y :=
    fun x hx y hy hf => List.inj_on_of_nodup_map hnodup hx hy hf
  refine ⟨sortItems (lookupChildren
      (buildEntries (fetchNotes oracle (filterUnloadedNotes ch))) ch), rfl, ?_, ?_, ?_, ?_, ?_, ?_⟩
  · have hpoint : topList (lookupChildren
        (buildEntries (fetchNotes oracle (filterUnloadedNotes ch))) ch)
        = (topList ch).map (specStep oracle) := by
      rw [topList_lookupChildren]
      exact List.map_congr_left (lookup_step_pointwise oracle ch hinj)
    exact (topList_sortItems_perm _).trans (hpoint ▸ List.Perm.refl _)
  · intro c hc
    have hmem : specStep oracle c ∈ (topList ch).map (specStep oracle) :=
      List.mem_map_of_mem _ hc
    have hperm := (topList_sortItems_perm (lookupChildren
      (buildEntries (fetchNotes oracle (filterUnloadedNotes ch))) ch))
    rw [topList_lookupChildren, List.map_congr_left (lookup_step_pointwise oracle ch hinj)]
      at hperm
    exact hperm.symm.subset hmem
  · intro c hc hu hfail
    have hstep : specStep oracle c = c := by
      cases c with
      | note i2 nm co tg p2 l2 =>
        simp only [Item.path] at hfail
        simp [specStep, hu, applyFetch, hfail]
      | folder i2 n2 ch2 op2 p2 l2 => simp [isUnloadedNote] at hu
    constructor
    · have hmem : specStep oracle c ∈ (topList ch).map (specStep oracle) :=
        List.mem_map_of_mem _ hc
      have hperm := (topList_sortItems_perm (lookupChildren
        (buildEntries (fetchNotes oracle (filterUnloadedNotes ch))) ch))
      rw [topList_lookupChildren, List.map_congr_left (lookup_step_pointwise oracle ch hinj)]
        at hperm
      have := hperm.symm.subset hmem
      rwa [hstep] at this
    · exact hu
  · intro c hc hu _
    have hstep : specStep oracle c = applyFetch oracle c := by simp [specStep, hu]
    have hmem : specStep oracle c ∈ (topList ch).map (specStep oracle) :=
      List.mem_map_of_mem _ hc
    have hperm := (topList_sortItems_perm (lookupChildren
      (buildEntries (fetchNotes oracle (filterUnloadedNotes ch))) ch))
    rw [topList_lookupChildren, List.map_congr_left (lookup_step_pointwise oracle ch hinj)]
      at hperm
    have := hperm.symm.subset hmem
    rwa [hstep] at this
  · simp only [toggleFolderOpenLoad, topList_filterUnloadedNotes]
  · simp only [toggleFolderOpenLoad, topList_filterUnloadedNotes]

/-- Two unloaded notes under one folder, for the C7 witness. -/
def c7Children : ItemList :=
  ItemList.cons (Item.note "note:F/a.md".data "a".data [] [] "F/a.md".data false)
    (ItemList.cons (Item.note "note:F/z.md".data "z".data [] [] "F/z.md".data false)
      ItemList.nil)

/-- An oracle that loads `F/a.md` successfully and fails on everything
else (so `F/z.md` is the failing sibling). -/
def c7Oracle : Str → Option (Str × List Str) :=
  fun p => if p = "F/a.md".data then some ("body".data, ["t".data]) else none

/-- Witness for C7: both unloaded children are fetched (paths in order),
and the theorem applies at this concrete folder and oracle. -/
theorem c7_lazy_load_per_item_witness :
    ((topList c7Children).map Item.id).Nodup ∧
      (toggleFolderOpenLoad c7Oracle
          (Item.folder "folder:F".data "F".data c7Children false "F".data false)).2.1
        = ["F/a.md".data, "F/z.md".data] := by
  refine ⟨by decide, ?_⟩
  obtain ⟨ch', h1, h2, h3, h4, h5, h6, h7⟩ :=
    c7_lazy_load_per_item c7Oracle "folder:F".data "F".data c7Children false "F".data false
      (by decide)
  rw [h6]
  decide

/-! ## frontmatter.ts: the front-matter codec

`FRONT_MATTER_REGEX = /^---\s*\n([\s\S]*?)\n---\s*\n?/` is embedded as an
explicit matcher with the regex's backtracking semantics:

* `^---` — the input must start with the marker;
* `\s*\n` — the greedy `\s*` followed by a mandatory newline can only end
  at a newline inside the maximal whitespace run following the marker; the
  engine tries these newlines from the last to the first (backtracking from
  the longest `\s*` candidate) until the remainder of the pattern matches;
* `([\s\S]*?)\n---` — the lazy group captures up to the *first*
  occurrence of newline-marker in the remaining input;
* `\s*\n?` — greedily consumes the following whitespace run (the optional
  newline then matches empty, the run being maximal, so nothing is added
  to the match beyond the run). -/

/-- Indices of newline characters within a string, in increasing order. -/
def nlIdxsAsc : Str → List Nat
  | [] => []
  | c :: t =>
    if c = '\n' then 0 :: (nlIdxsAsc t).map (· + 1)
    else (nlIdxsAsc t).map (· + 1)

/-- One backtracking attempt: `\s*\n` ends just after position `3 + j`
(a newline of the whitespace run), then the lazy group runs to the first
`\n---` and the trailing `\s*\n?` greedily takes the whitespace run. -/
def fmTryAt (s : Str) (j : Nat) : Option (Str × Nat) :=
  let p0 := 3 + j + 1
  let after := s.drop p0
  match findSubIdx "\n---".data after with
  | none => none
  | some c =>
    let w2 := ((after.drop (c + 4)).takeWhile isSpaceJS).length
    some (after.take c, p0 + c + 4 + w2)

/-- Try the `\s*\n` split points in the engine's order (given by the
caller: last newline of the whitespace run first), returning the first
attempt whose remainder matches. -/
def fmTryList (s : Str) : List Nat → Option (Str × Nat)
  | [] => none
  | j :: js =>
    match fmTryAt s j with
    | some r => some r
    | none => fmTryList s js

def fmMatch (s : Str) : Option (Str × Nat) :=
  if ("---".data).isPrefixOf s then
    fmTryList s ((nlIdxsAsc ((s.drop 3).takeWhile isSpaceJS)).reverse)
  else none

/-- Values held in the metadata object fed to stringifyFrontMatter:
strings (any non-array scalar is first rendered by JavaScript String(), so
it reaches the codec as its string rendering), string-array tags, and
null/undefined (dropped by the validData filter). -/
inductive MV where
  | str (s : Str)
  | tags (l : List Str)
  | nullv
deriving DecidableEq

/-- Values produced by parseFrontMatter: quoted-stripped scalar strings
and tags arrays. -/
inductive PV where
  | str (s : Str)
  | tags (l : List Str)
deriving DecidableEq

/-- JavaScript String(value): identity on strings, comma-joined elements
for an array, "null" for null. -/
def joinCommaStr : List Str → Str
  | [] => []
  | [x] => x
  | x :: rest => x ++ ',' :: joinCommaStr rest

def jsStringOfMV : MV → Str
  | MV.str s => s
  | MV.tags l => joinCommaStr l
  | MV.nullv => "null".data

/-- JSON.stringify for an array of strings none of which needs escaping
(no quote, backslash or control characters — the only shape this
development ever feeds to it). -/
def jsonStringifyTags (l : List Str) : Str :=
  '[' :: joinCommaStr (l.map (fun t => '"' :: (t ++ ['"']))) ++ [']']

/-- `value !== undefined && value !== null`. -/
def isDefinedMV : MV → Bool
  | MV.nullv => false
  | _ => true

def validData (data : List (Str × MV)) : List (Str × MV) :=
  data.filter (fun kv => isDefinedMV kv.2)

/-- One `key: value` line (with trailing newline) of the serialized
block. -/
def fmLine (k : Str) (v : MV) : Str :=
  let isTagsArr : Bool := match v with | MV.tags _ => true | _ => false
  if k = "tags".data ∧ isTagsArr = true then
    "tags: ".data ++ (match v with | MV.tags l => jsonStringifyTags l | _ => []) ++ ['\n']
  else k ++ ": ".data ++ jsStringOfMV v ++ ['\n']

def fmLines : List (Str × MV) → Str
  | [] => []
  | (k, v) :: rest => fmLine k v ++ fmLines rest

/-- frontmatter.ts stringifyFrontMatter: with no defined metadata the
content is returned untouched; otherwise the marker block is emitted
(tags as a JSON array, everything else through String()) followed by a
blank line and the trimmed content. -/
def stringifyFrontMatter (data : List (Str × MV)) (content : Str) : Str :=
  let vd := validData data
  if vd.length = 0 then content
  else "---\n".data ++ fmLines vd ++ "---\n\n".data ++ trimJS content

/-- Outcome of `JSON.parse(value)` as observed by the tags branch:
an array (of strings, the modelled case), a successful parse of a
non-array value, or a thrown syntax error. -/
inductive JOut where
  | arr (l : List Str)
  | okNonArr
  | failed

/-- JSON whitespace. -/
def isJsonWs (c : Char) : Bool := c = ' ' || c = '\t' || c = '\n' || c = '\r'

/-- Body of a JSON string after its opening quote: bare characters up to
the closing quote.  Escape sequences are not modelled (treated as a parse
failure); every string this development parses contains none. -/
def jpString : Str → Option (Str × Str)
  | [] => none
  | c :: rest =>
    if c = '"' then some ([], rest)
    else if c = '\\' || decide (c.toNat < 32) then none
    else match jpString rest with
      | some (t, r) => some (c :: t, r)
      | none => none

/-- Elements of a non-empty JSON string array, positioned after `[` or
`,` (fuelled by the input length; each step consumes at least one
character). -/
def jpArrAux : Nat → Str → Option (List Str × Str)
  | 0, _ => none
  | fuel + 1, s =>
    match s.dropWhile isJsonWs with
    | '"' :: r =>
      match jpString r with
      | none => none
      | some (x, r2) =>
        match r2.dropWhile isJsonWs with
        | ',' :: r4 =>
          match jpArrAux fuel r4 with
          | some (xs, r5) => some (x :: xs, r5)
          | none => none
        | ']' :: r4 => some ([x], r4)
        | _ => none
    | _ => none

/-- A JSON string array, positioned after its `[`. -/
def jpArr (s : Str) : Option (List Str × Str) :=
  match s.dropWhile isJsonWs with
  | ']' :: r => some ([], r)
  | _ => jpArrAux (s.length + 1) s

def jpAllWs (s : Str) : Bool := s.dropWhile isJsonWs = []

/-- Non-array JSON scalars: string literals handled separately; here the
keyword literals and plain (optionally negative) integers.  Fractions and
exponents are not modelled — nothing in this development produces them. -/
def jsonLitB (s : Str) : Bool :=
  if jsStartsWith s "true".data && jpAllWs (s.drop 4) then true
  else if jsStartsWith s "false".data && jpAllWs (s.drop 5) then true
  else if jsStartsWith s "null".data && jpAllWs (s.drop 4) then true
  else
    let s1 := match s with | '-' :: r => r | _ => s
    (s1.takeWhile Char.isDigit ≠ []) && jpAllWs (s1.dropWhile Char.isDigit)

/-- Model of `JSON.parse(value)` as used on the tags line, restricted to
the grammar described above. -/
def jsonParseTagsJS (value : Str) : JOut :=
  match value.dropWhile isJsonWs with
  | '[' :: r =>
    match jpArr r with
    | some (xs, rest) => if jpAllWs rest then JOut.arr xs else JOut.failed
    | none => JOut.failed
  | '"' :: r =>
    match jpString r with
    | some (_, rest) => if jpAllWs rest then JOut.okNonArr else JOut.failed
    | none => JOut.failed
  | s1 => if jsonLitB s1 then JOut.okNonArr else JOut.failed

/-- The comma-separated fallback for tags:
`value.split(',').map(t => t.trim()).filter(Boolean)`. -/
def commaSplitTags (value : Str) : List Str :=
  ((splitOnChar ',' value).map trimJS).filter (fun t => t ≠ [])

/-- `value.replace(/^['"]|['"]$/g, '')`: one leading and one trailing
quote character (single or double) are removed when present. -/
def stripQuotesJS (s : Str) : Str :=
  let isQ : Char → Bool := fun c => c = '\'' || c = '"'
  let s1 := match s with
    | c :: rest => if isQ c then rest else c :: rest
    | [] => []
  match s1.reverse with
  | c :: rest => if isQ c then rest.reverse else s1
  | [] => []

/-- `data[key] = v` on a JavaScript object: overwrite in place when the
key exists, append otherwise. -/
def upsertData (data : List (Str × PV)) (k : Str) (v : PV) : List (Str × PV) :=
  if data.any (fun kv => kv.1 = k) then
    data.map (fun kv => if kv.1 = k then (k, v) else kv)
  else data ++ [(k, v)]

/-- The per-line body of parseFrontMatter's forEach: a line contributes
only when its first colon sits at a positive index; the tags key tries
JSON first (silently contributing nothing when JSON yields a non-array)
with the comma fallback on a parse error; other keys are stored with
surrounding quotes stripped. -/
def processLine (data : List (Str × PV)) (line : Str) : List (Str × PV) :=
  match firstIdxOfChar ':' line with
  | some ci =>
    if 0 < ci then
      let key := trimJS (line.take ci)
      let value := trimJS (line.drop (ci + 1))
      if key = "tags".data then
        match jsonParseTagsJS value with
        | JOut.arr tags => upsertData data "tags".data (PV.tags tags)
        | JOut.okNonArr => data
        | JOut.failed => upsertData data "tags".data (PV.tags (commaSplitTags value))
      else upsertData data key (PV.str (stripQuotesJS value))
    else data
  | none => data

/-- frontmatter.ts parseFrontMatter. -/
def parseFrontMatter (markdown : Str) : List (Str × PV) × Str :=
  match fmMatch markdown with
  | none => ([], markdown)
  | some (fmBlock, len) =>
    ((splitOnChar '\n' fmBlock).foldl processLine [], markdown.drop len)

/-! ## useNotes.ts importFiles: the zip branches -/

/-- `data.id || default`: the parsed id property (always a scalar string,
since only the reserved key `tags` is ever stored as an array) unless
missing or empty (falsy). -/
def noteIdFromData (data : List (Str × PV)) (dflt : Str) : Str :=
  match data.find? (fun kv => kv.1 = "id".data) with
  | some (_, PV.str s) => if s = [] then dflt else s
  | _ => dflt

/-- `Array.isArray(data.tags) ? data.tags : []`. -/
def tagsFromData (data : List (Str × PV)) : List Str :=
  match data.find? (fun kv => kv.1 = "tags".data) with
  | some (_, PV.tags l) => l
  | _ => []

/-- `name.replace(/\.suffix$/, '')` for a literal suffix. -/
def stripSuffixStr (s suf : Str) : Str :=
  if jsEndsWith s suf then s.take (s.length - suf.length) else s

/-- One entry of a loaded zip archive as JSZip presents it. -/
structure ZipEntry where
  path : Str
  isDir : Bool
  content : Str

def idxFirstFolderNamed (part : Str) : ItemList → Option Nat
  | ItemList.nil => none
  | ItemList.cons h t =>
    match h with
    | Item.folder _ n _ _ _ _ =>
      if n = part then some 0 else (idxFirstFolderNamed part t).map (· + 1)
    | Item.note _ _ _ _ _ _ => (idxFirstFolderNamed part t).map (· + 1)

def getAtIL : ItemList → Nat → Option Item
  | ItemList.nil, _ => none
  | ItemList.cons h _, 0 => some h
  | ItemList.cons _ t, n + 1 => getAtIL t n

def setAtIL : ItemList → Nat → Item → ItemList
  | ItemList.nil, _, _ => ItemList.nil
  | ItemList.cons _ t, 0, x => ItemList.cons x t
  | ItemList.cons h t, n + 1, x => ItemList.cons h (setAtIL t n x)

/-- The walk of processZipEntry (localStorage branch): descend the
remaining path parts from the current folder, reusing the first child
folder of the wanted name or appending a fresh one (no re-sort on folder
creation), and at the end push the parsed note into the reached folder and
re-sort exactly that folder's children.  The in-place mutation of the
source is rendered as replacement at the found child's position. -/
def zipInsertNote (fileName content : Str) : List Str → Item → Item
  | [], Item.folder i n ch op p l =>
    let pd := parseFrontMatter content
    let notePath := p ++ '/' :: fileName
    let note := Item.note (noteIdFromData pd.1 ("note:".data ++ notePath))
      (stripSuffixStr fileName ".md".data) pd.2 (tagsFromData pd.1) notePath true
    Item.folder i n (sortItems (ch.append (ItemList.single note))) op p l
  | part :: rest, Item.folder i n ch op p l =>
    (match idxFirstFolderNamed part ch with
      | some k =>
        match getAtIL ch k with
        | some child =>
          Item.folder i n (setAtIL ch k (zipInsertNote fileName content rest child)) op p l
        | none => Item.folder i n ch op p l
      | none =>
        let childPath := p ++ '/' :: part
        let child : Item :=
          Item.folder ("folder:".data ++ childPath) part ItemList.nil false childPath false
        Item.folder i n (ch.append (ItemList.single (zipInsertNote fileName content rest child)))
          op p l)
  | _, Item.note i nm c tg p l => Item.note i nm c tg p l

/-- useNotes.ts importFiles, localStorage zip branch, processZipEntry:
directory entries, entries whose path does not end in `.md`, and entries
under the platform metadata prefix `__MACOSX` are skipped; everything else
becomes a note under the synthesized folder chain of its path parts. -/
def processZipEntryLS (root : Item) (e : ZipEntry) : Item :=
  if e.isDir || !(jsEndsWith e.path ".md".data) || jsStartsWith e.path "__MACOSX".data then root
  else
    let pathParts := (splitOnChar '/' e.path).filter (fun q => q ≠ [])
    match pathParts.getLast? with
    | none => root
    | some fileName => zipInsertNote fileName e.content pathParts.dropLast root

/-- useNotes.ts importFiles, localStorage zip branch, for an import
targeting the root level: a wrapper folder named after the archive file
(its `.zip` suffix stripped) collects all entries; it is appended to the
root level (re-sorted) only when at least one entry was imported. -/
def importZipLS (zipName : Str) (entries : List ZipEntry) (fs : ItemList) : ItemList :=
  let rootFolderName := stripSuffixStr zipName ".zip".data
  let root0 : Item :=
    Item.folder ("folder:".data ++ rootFolderName) rootFolderName ItemList.nil false
      rootFolderName false
  let root := entries.foldl processZipEntryLS root0
  match root.children with
  | ItemList.nil => fs
  | _ => sortItems (fs.append (ItemList.single root))

/-- useNotes.ts importFiles, fileSystem zip branch, processZipEntry skip
condition: entries with no path parts left after dropping `.` and `..`
segments, and entries under `__MACOSX`, are ignored. -/
def fsZipEntryIgnored (path : Str) : Bool :=
  let pathParts := (splitOnChar '/' path).filter (fun q => q ≠ ".".data ∧ q ≠ "..".data)
  decide (pathParts = []) || jsStartsWith path "__MACOSX".data

/-- node path.basename for forward-slash paths (the shape of zip entry
names). -/
def basenameJS (s : Str) : Str :=
  match (splitOnChar '/' s).getLast? with
  | some b => b
  | none => s

def toLowerStr (s : Str) : Str := s.map Char.toLower

/-- src/backend/routes/ai.js /upload: an archive entry is written to disk
iff it is not a directory, its basename ends in `.md`, and its basename is
not the reserved index file `_toc.md` (case-insensitively). -/
def uploadEntryImported (isDir : Bool) (entryName : Str) : Bool :=
  !isDir && jsEndsWith (basenameJS entryName) ".md".data
    && !(toLowerStr (basenameJS entryName) = "_toc.md".data : Bool)

/-! ## C8: zip import into the root (localStorage branch) -/

/-- The archive of the spec's import scenario: entries `A/b.md` and
`A/c.md`, in a file named `import.zip`. -/
def c8Entries : List ZipEntry :=
  [⟨"A/b.md".data, false, "hello b".data⟩, ⟨"A/c.md".data, false, "hello c".data⟩]

/-- C8 counterexample: importing `import.zip` containing `A/b.md` and
`A/c.md` into the root does not synthesize Folder `A` at the root — the
localStorage branch wraps every archive in a folder named after the zip
file, so the only root-level item merged in is named `import`, not `A`. -/
theorem c8_zip_import_wrapper_folder :
    (topList (importZipLS "import.zip".data c8Entries ItemList.nil)).map Item.name
      = ["import".data]
    ∧ "import".data ≠ "A".data :=
  ⟨by decide, by decide⟩

/-- C8 (amended): importing `import.zip` containing `A/b.md` and `A/c.md`
into the root synthesizes a wrapper Folder named after the archive
(`import`), inside which Folder `A` is synthesized for the path segment,
holding exactly the two Notes `b` and `c` sorted `b` before `c`; the
result is merged into the (empty) root level. -/
theorem c8_zip_import_amended :
    importZipLS "import.zip".data c8Entries ItemList.nil =
      ItemList.single (Item.folder "folder:import".data "import".data
        (ItemList.single (Item.folder "folder:import/A".data "A".data
          (ItemList.cons
            (Item.note "note:import/A/b.md".data "b".data "hello b".data []
              "import/A/b.md".data true)
            (ItemList.cons
              (Item.note "note:import/A/c.md".data "c".data "hello c".data []
                "import/A/c.md".data true)
              ItemList.nil))
          false "import/A".data false))
        false "import".data false) := rfl

/-! ## C9: reserved-name filtering during archive import -/

/-- C9 counterexample: the frontend localStorage zip branch does not
ignore the reserved index filename — a `_toc.md` archive entry becomes an
ordinary Note named `_toc` (inside the wrapper folder). -/
theorem c9_toc_entry_imported :
    importZipLS "import.zip".data [⟨"_toc.md".data, false, "toc body".data⟩] ItemList.nil =
      ItemList.single (Item.folder "folder:import".data "import".data
        (ItemList.single (Item.note "note:import/_toc.md".data "_toc".data "toc body".data []
          "import/_toc.md".data true))
        false "import".data false) := rfl

/-- C9 (amended): entries under the platform metadata prefix `__MACOSX`
are ignored by both frontend zip branches (no Note or Folder is created
for them), but the reserved index filename `_toc.md` is ignored only by
the remote backend's /upload route; the frontend zip branches import it
like any other markdown entry (see the counterexample). -/
theorem c9_ignored_entries_amended :
    (∀ (root : Item) (e : ZipEntry),
        jsStartsWith e.path "__MACOSX".data = true → processZipEntryLS root e = root)
    ∧ (∀ path : Str,
        jsStartsWith path "__MACOSX".data = true → fsZipEntryIgnored path = true)
    ∧ (∀ (isDir : Bool) (entryName : Str),
        toLowerStr (basenameJS entryName) = "_toc.md".data →
          uploadEntryImported isDir entryName = false) := by
  refine ⟨?_, ?_, ?_⟩
  · intro root e h
    simp [processZipEntryLS, h]
  · intro path h
    simp [fsZipEntryIgnored, h]
  · intro isDir entryName h
    simp [uploadEntryImported, h]

/-- Witness for the amended C9 statement at concrete entries. -/
theorem c9_ignored_entries_amended_witness :
    processZipEntryLS
        (Item.folder "folder:import".data "import".data ItemList.nil false "import".data false)
        ⟨"__MACOSX/A/b.md".data, false, "x".data⟩
      = Item.folder "folder:import".data "import".data ItemList.nil false "import".data false
    ∧ fsZipEntryIgnored "__MACOSX/A/b.md".data = true
    ∧ uploadEntryImported false "A/_toc.md".data = false :=
  ⟨c9_ignored_entries_amended.1 _ _ (by decide),
   c9_ignored_entries_amended.2.1 _ (by decide),
   c9_ignored_entries_amended.2.2 false "A/_toc.md".data (by decide)⟩

/-! ## C3: the serialize/parse round trip

The round trip is analysed for serialized output of shape
`"---\n" ++ J ++ "\n---\n\n" ++ trim(body)` with `J` the newline-join of
the `key: value` lines. -/

/-- The body (without trailing newline) of a serialized metadata line. -/
def lineBody (kv : Str × MV) : Str :=
  kv.1 ++ ": ".data ++ (match kv.2 with
    | MV.str s => s
    | MV.tags l => jsonStringifyTags l
    | MV.nullv => "null".data)

/-- Newline-join of a list of lines. -/
def joinNL : List Str → Str
  | [] => []
  | [x] => x
  | x :: rest => x ++ '\n' :: joinNL rest

/-- The parsed rendering of a metadata entry. -/
def convMV : Str × MV → Str × PV
  | (k, MV.str s) => (k, PV.str s)
  | (k, MV.tags l) => (k, PV.tags l)
  | (k, MV.nullv) => (k, PV.str [])

/-- Well-formedness of a serialized key: nonempty, trim-fixed, free of
colons and newlines, and not starting with the block marker. -/
def wfKeyB (k : Str) : Bool :=
  decide (k ≠ []) && decide (trimJS k = k) && !(k.contains ':') && !(k.contains '\n')
    && !(jsStartsWith k "---".data)

def isQuoteCh (c : Char) : Bool := c = '\'' || c = '"'

/-- Scalar values that survive the parse untouched: newline-free,
trim-fixed, and not starting or ending with a quote character. -/
def wfScalarB (s : Str) : Bool :=
  !(s.contains '\n') && decide (trimJS s = s)
    && (match s with | [] => true | c :: _ => !isQuoteCh c)
    && (match s.reverse with | [] => true | c :: _ => !isQuoteCh c)

/-- Tag characters needing no JSON escaping. -/
def wfTagCh (c : Char) : Bool := !(c = '"') && !(c = '\\') && decide (32 ≤ c.toNat)

def wfTagsB (l : List Str) : Bool := l.all (fun t => t.all wfTagCh)

/-- Well-formedness of one metadata entry: well-formed key; a string-array
exactly under the reserved key `tags`; scalars under any other key. -/
def wfEntryB : Str × MV → Bool
  | (k, MV.str s) => wfKeyB k && decide (k ≠ "tags".data) && wfScalarB s
  | (k, MV.tags l) => wfKeyB k && decide (k = "tags".data) && wfTagsB l
  | (_, MV.nullv) => true

theorem dropWhile_head_false (p : Char → Bool) :
    ∀ (l : Str) (c : Char) (t : Str), l.dropWhile p = c :: t → p c = false
  | [], c, t => by simp
  | a :: l', c, t => by
    intro h
    by_cases ha : p a = true
    · rw [List.dropWhile_cons_of_pos ha] at h
      exact dropWhile_head_false p l' c t h
    · rw [List.dropWhile_cons_of_neg (by simpa using ha)] at h
      cases h
      simpa using ha

theorem trimJS_head_not_space (b : Str) (c : Char) (t : Str)
    (h : trimJS b = c :: t) : isSpaceJS c = false := by
  have hpre : trimJS b <+: b.dropWhile isSpaceJS := by
    have hs : ((b.dropWhile isSpaceJS).reverse.dropWhile isSpaceJS)
        <:+ (b.dropWhile isSpaceJS).reverse := List.dropWhile_suffix _
    have := List.reverse_prefix.mpr hs
    simpa [trimJS] using this
  obtain ⟨r, hr⟩ := hpre
  rw [h] at hr
  exact dropWhile_head_false isSpaceJS b c (t ++ r) hr.symm

theorem trim_cons_space (c : Char) (v : Str) (hc : isSpaceJS c = true) :
    trimJS (c :: v) = trimJS v := by
  simp [trimJS, List.dropWhile_cons_of_pos hc]

theorem trim_fix_of_ends (x : Str) (c d : Char) (t u : Str)
    (hx : x = c :: t) (hrev : x.reverse = d :: u)
    (hc : isSpaceJS c = false) (hd : isSpaceJS d = false) : trimJS x = x := by
  have h1 : x.dropWhile isSpaceJS = x := by
    rw [hx, List.dropWhile_cons_of_neg (by simp [hc])]
  have h2 : x.reverse.dropWhile isSpaceJS = x.reverse := by
    rw [hrev, List.dropWhile_cons_of_neg (by simp [hd])]
  rw [trimJS, h1, h2, List.reverse_reverse]

theorem takeWhile_cons_false (p : Char → Bool) (c : Char) (t : Str) (hc : p c = false) :
    (c :: t).takeWhile p = [] := by
  simp [List.takeWhile_cons, hc]

theorem findSub_append_free :
    ∀ L : Str, ('\n' ∉ L) → ∀ rest : Str,
      findSubIdx "\n---".data (L ++ rest)
        = (findSubIdx "\n---".data rest).map (· + L.length)
  | [], _, rest => by
    simp only [List.nil_append]
    cases findSubIdx "\n---".data rest <;> simp
  | c :: L', h, rest => by
    have hc : ('\n' == c) = false :=
      beq_eq_false_iff_ne.mpr (Ne.symm (fun hh => h (hh ▸ List.mem_cons_self c L')))
    have hpre : ("\n---".data).isPrefixOf (c :: (L' ++ rest)) = false := by
      simp [List.isPrefixOf, hc]
    rw [List.cons_append, findSubIdx, if_neg (by simp [hpre]),
      findSub_append_free L' (fun hm => h (List.mem_cons_of_mem c hm)) rest]
    cases findSubIdx "\n---".data rest with
    | none => simp
    | some k => simp [Nat.add_assoc]

theorem findSub_at_marker (B : Str) :
    findSubIdx "\n---".data ('\n' :: '-' :: '-' :: '-' :: B) = some 0 := by
  rw [findSubIdx, if_pos (by simp [List.isPrefixOf])]

theorem not_dash3_prefix :
    ∀ (L Z : Str), ("---".data).isPrefixOf L = false →
      ("---".data).isPrefixOf (L ++ '\n' :: Z) = false
  | [], Z, _ => by
    simp [List.isPrefixOf, show (('-' : Char) == '\n') = false from rfl]
  | [c], Z, _ => by
    simp [List.isPrefixOf, show (('-' : Char) == '\n') = false from rfl]
  | [c, d], Z, _ => by
    simp [List.isPrefixOf, show (('-' : Char) == '\n') = false from rfl]
  | c :: d :: e :: t, Z, h => by
    simp only [List.cons_append]
    simp only [List.isPrefixOf] at h ⊢
    simpa using h

theorem joinNL_length_cons (L : Str) (rest : List Str) (h : rest ≠ []) :
    (joinNL (L :: rest)).length = L.length + 1 + (joinNL rest).length := by
  cases rest with
  | nil => exact absurd rfl h
  | cons a t => simp [joinNL]; omega

theorem joinNL_cons_ne (L : Str) (rest : List Str) (h : rest ≠ []) :
    joinNL (L :: rest) = L ++ '\n' :: joinNL rest := by
  cases rest with
  | nil => exact absurd rfl h
  | cons a t => simp [joinNL]

theorem findSub_joinNL :
    ∀ (ls : List Str) (B : Str), ls ≠ [] →
      (∀ L ∈ ls, ('\n' ∉ L) ∧ ("---".data).isPrefixOf L = false) →
      findSubIdx "\n---".data (joinNL ls ++ '\n' :: '-' :: '-' :: '-' :: B)
        = some (joinNL ls).length
  | [], _, h, _ => absurd rfl h
  | [L], B, _, hwf => by
    rw [joinNL, findSub_append_free L (hwf L (by simp)).1, findSub_at_marker]
    simp
  | L :: L2 :: rest, B, _, hwf => by
    have hrest : (L2 :: rest : List Str) ≠ [] := by simp
    rw [joinNL_cons_ne L (L2 :: rest) hrest, List.append_assoc, List.cons_append,
      findSub_append_free L (hwf L (by simp)).1]
    have hY : ∃ Z : Str, joinNL (L2 :: rest) ++ '\n' :: '-' :: '-' :: '-' :: B
        = L2 ++ '\n' :: Z := by
      cases rest with
      | nil => exact ⟨'-' :: '-' :: '-' :: B, by simp [joinNL]⟩
      | cons a t =>
        refine ⟨joinNL (a :: t) ++ '\n' :: '-' :: '-' :: '-' :: B, ?_⟩
        rw [joinNL_cons_ne L2 (a :: t) (by simp)]
        simp
    obtain ⟨Z, hZ⟩ := hY
    have hnp : ("\n---".data).isPrefixOf
        ('\n' :: (joinNL (L2 :: rest) ++ '\n' :: '-' :: '-' :: '-' :: B)) = false := by
      rw [hZ]
      have := not_dash3_prefix L2 Z (hwf L2 (by simp)).2
      simp [List.isPrefixOf]
      simpa using this
    rw [findSubIdx, if_neg (by simp [hnp]),
      findSub_joinNL (L2 :: rest) B (by simp)
        (fun L3 hm => hwf L3 (List.mem_cons_of_mem L hm))]
    simp [joinNL_length_cons L (L2 :: rest) hrest]
    omega

theorem splitOn_nosep :
    ∀ L : Str, ('\n' ∉ L) → splitOnChar '\n' L = [L]
  | [], _ => rfl
  | c :: L', h => by
    have hc : c ≠ '\n' := fun hh => h (hh ▸ List.mem_cons_self c L')
    rw [splitOnChar]
    simp only [if_neg hc, splitOn_nosep L' (fun hm => h (List.mem_cons_of_mem c hm))]

theorem splitOn_append_sep :
    ∀ L : Str, ('\n' ∉ L) → ∀ R : Str,
      splitOnChar '\n' (L ++ '\n' :: R) = L :: splitOnChar '\n' R
  | [], _, R => by
    simp [splitOnChar]
  | c :: L', h, R => by
    have hc : c ≠ '\n' := fun hh => h (hh ▸ List.mem_cons_self c L')
    rw [List.cons_append, splitOnChar]
    simp only [if_neg hc, splitOn_append_sep L' (fun hm => h (List.mem_cons_of_mem c hm)) R]

theorem splitOn_joinNL :
    ∀ ls : List Str, ls ≠ [] → (∀ L ∈ ls, '\n' ∉ L) →
      splitOnChar '\n' (joinNL ls) = ls
  | [], h, _ => absurd rfl h
  | [L], _, hwf => by
    rw [joinNL, splitOn_nosep L (hwf L (by simp))]
  | L :: L2 :: rest, _, hwf => by
    rw [joinNL_cons_ne L (L2 :: rest) (by simp),
      splitOn_append_sep L (hwf L (by simp)),
      splitOn_joinNL (L2 :: rest) (by simp) (fun L3 hm => hwf L3 (List.mem_cons_of_mem L hm))]

theorem firstIdx_colon :
    ∀ k : Str, (':' ∉ k) → ∀ r : Str, firstIdxOfChar ':' (k ++ ':' :: r) = some k.length
  | [], _, r => by simp [firstIdxOfChar]
  | c :: k', h, r => by
    have hc : c ≠ ':' := fun hh => h (hh ▸ List.mem_cons_self c k')
    rw [List.cons_append, firstIdxOfChar]
    simp only [if_neg hc, firstIdx_colon k' (fun hm => h (List.mem_cons_of_mem c hm)) r,
      Option.map_some', List.length_cons]

theorem jpString_wf :
    ∀ t : Str, t.all wfTagCh = true → ∀ z : Str, jpString (t ++ '"' :: z) = some (t, z)
  | [], _, z => by simp [jpString]
  | c :: t', h, z => by
    simp only [List.all_cons, Bool.and_eq_true] at h
    have h1 : ¬(c = '"') := by
      simp only [wfTagCh, Bool.and_eq_true, Bool.not_eq_true', decide_eq_true_eq] at h
      exact fun hh => by simp [hh] at h
    have h2 : (c = '\\' || decide (c.toNat < 32)) = false := by
      simp only [wfTagCh, Bool.and_eq_true, Bool.not_eq_true', beq_eq_false_iff_ne, ne_eq,
        decide_eq_true_eq] at h
      simp only [Bool.or_eq_false_iff, decide_eq_false_iff_not]
      obtain ⟨⟨_, hbs⟩, hge⟩ := h.1
      exact ⟨by simpa using hbs, by omega⟩
    rw [List.cons_append, jpString]
    simp only [if_neg h1, h2, if_false, Bool.false_eq_true,
      jpString_wf t' h.2 z]

theorem joinComma_quote_head :
    ∀ (t : Str) (ls : List Str),
      joinCommaStr ((t :: ls).map (fun x => '"' :: (x ++ ['"'])))
        = '"' :: (t ++ ['"']) ++ (match ls with
          | [] => []
          | _ :: _ => ',' :: joinCommaStr (ls.map (fun x => '"' :: (x ++ ['"'])))) := by
  intro t ls
  cases ls with
  | nil => simp [joinCommaStr]
  | cons a l => simp [joinCommaStr]

theorem jpArrAux_stringify :
    ∀ (l : List Str), l ≠ [] → wfTagsB l = true → ∀ fuel : Nat, l.length ≤ fuel →
      jpArrAux fuel (joinCommaStr (l.map (fun x => '"' :: (x ++ ['"']))) ++ [']'])
        = some (l, [])
  | [], h, _, _, _ => absurd rfl h
  | t :: rest, _, hwf, fuel, hfuel => by
    simp only [wfTagsB, List.all_cons, Bool.and_eq_true] at hwf
    cases fuel with
    | zero => simp at hfuel
    | succ fuel' =>
      rw [joinComma_quote_head]
      cases rest with
      | nil =>
        have hstr := jpString_wf t hwf.1 [']']
        rw [jpArrAux]
        have hshape : ('"' :: (t ++ ['"']) ++ ([] : Str)) ++ [']']
            = '"' :: (t ++ '"' :: [']']) := by simp
        rw [hshape]
        have hdw : ('"' :: (t ++ '"' :: [']'])).dropWhile isJsonWs
            = '"' :: (t ++ '"' :: [']']) := by
          rw [List.dropWhile_cons_of_neg (by simp [isJsonWs])]
        rw [hdw]
        simp only [hstr]
        rw [List.dropWhile_cons_of_neg (by simp [isJsonWs])]
        rfl
      | cons b l2 =>
        have hstr := jpString_wf t hwf.1
          (',' :: (joinCommaStr ((b :: l2).map (fun x => '"' :: (x ++ ['"']))) ++ [']']))
        rw [jpArrAux]
        have hshape : ('"' :: (t ++ ['"'])
              ++ ',' :: joinCommaStr ((b :: l2).map (fun x => '"' :: (x ++ ['"'])))) ++ [']']
            = '"' :: (t ++ '"' ::
              (',' :: (joinCommaStr ((b :: l2).map (fun x => '"' :: (x ++ ['"']))) ++ [']']))) := by
          simp
        rw [hshape]
        have hdw : ('"' :: (t ++ '"' ::
              (',' :: (joinCommaStr ((b :: l2).map (fun x => '"' :: (x ++ ['"']))) ++ [']'])))).dropWhile isJsonWs
            = '"' :: (t ++ '"' ::
              (',' :: (joinCommaStr ((b :: l2).map (fun x => '"' :: (x ++ ['"']))) ++ [']']))) := by
          rw [List.dropWhile_cons_of_neg (by simp [isJsonWs])]
        rw [hdw]
        simp only [hstr]
        rw [List.dropWhile_cons_of_neg (by simp [isJsonWs])]
        have hrec := jpArrAux_stringify (b :: l2) (by simp) (by simp [wfTagsB, hwf.2]) fuel'
          (by simpa using Nat.lt_succ_iff.mp (by simpa using hfuel))
        show (match jpArrAux fuel'
            (joinCommaStr ((b :: l2).map (fun x => '"' :: (x ++ ['"']))) ++ [']']) with
          | some (xs, r5) => some (t :: xs, r5)
          | none => none) = some (t :: b :: l2, [])
        rw [hrec]

theorem len_joinComma_quote :
    ∀ l : List Str,
      l.length ≤ (joinCommaStr (l.map (fun x => '"' :: (x ++ ['"'])))).length + 1
  | [] => by simp [joinCommaStr]
  | [t] => by simp [joinCommaStr]
  | t :: b :: l2 => by
    have ih := len_joinComma_quote (b :: l2)
    simp only [List.map_cons, joinCommaStr, List.length_cons, List.length_append] at ih ⊢
    omega

theorem jsonParse_stringify (l : List Str) (hwf : wfTagsB l = true) :
    jsonParseTagsJS (jsonStringifyTags l) = JOut.arr l := by
  cases l with
  | nil => rfl
  | cons t rest =>
    have hhead : ∃ Y : Str,
        joinCommaStr ((t :: rest).map (fun x => '"' :: (x ++ ['"']))) = '"' :: Y := by
      cases rest with
      | nil => exact ⟨t ++ ['"'], by simp [joinCommaStr]⟩
      | cons b l2 => exact ⟨t ++ ['"'] ++
          ',' :: joinCommaStr ((b :: l2).map (fun x => '"' :: (x ++ ['"']))),
          by simp [joinCommaStr]⟩
    obtain ⟨Y, hY⟩ := hhead
    have hlen : (t :: rest).length ≤
        (joinCommaStr ((t :: rest).map (fun x => '"' :: (x ++ ['"']))) ++ [']']).length + 1 := by
      have := len_joinComma_quote (t :: rest)
      simp only [List.length_append, List.length_cons] at this ⊢
      omega
    have haux := jpArrAux_stringify (t :: rest) (by simp) hwf
      ((joinCommaStr ((t :: rest).map (fun x => '"' :: (x ++ ['"']))) ++ [']']).length + 1) hlen
    have hdrop1 : ('[' :: (joinCommaStr ((t :: rest).map (fun x => '"' :: (x ++ ['"']))) ++ [']'])).dropWhile isJsonWs
        = '[' :: (joinCommaStr ((t :: rest).map (fun x => '"' :: (x ++ ['"']))) ++ [']']) := by
      rw [List.dropWhile_cons_of_neg (by simp [isJsonWs])]
    have hdrop2 : (joinCommaStr ((t :: rest).map (fun x => '"' :: (x ++ ['"']))) ++ [']']).dropWhile isJsonWs
        = '"' :: (Y ++ [']']) := by
      rw [hY, List.cons_append, List.dropWhile_cons_of_neg (by simp [isJsonWs])]
    show jsonParseTagsJS
        ('[' :: (joinCommaStr ((t :: rest).map (fun x => '"' :: (x ++ ['"']))) ++ [']']))
      = JOut.arr (t :: rest)
    simp only [jsonParseTagsJS, hdrop1]
    simp only [jpArr, hdrop2]
    rw [haux]
    simp [jpAllWs]

theorem stripQuotes_of_wf (s : Str) (h : wfScalarB s = true) : stripQuotesJS s = s := by
  cases s with
  | nil => rfl
  | cons c t =>
    obtain ⟨d, u, hrev⟩ : ∃ d u, (c :: t).reverse = d :: u := by
      cases hr : (c :: t).reverse with
      | nil => exact absurd (List.reverse_eq_nil_iff.mp hr) (by simp)
      | cons d u => exact ⟨d, u, rfl⟩
    simp only [wfScalarB, hrev, Bool.and_eq_true, Bool.not_eq_true'] at h
    obtain ⟨⟨⟨_, _⟩, hc⟩, hd⟩ := h
    have hc' : (decide (c = '\'') || decide (c = '"')) = false := by
      simpa [isQuoteCh] using hc
    have hd' : (decide (d = '\'') || decide (d = '"')) = false := by
      simpa [isQuoteCh] using hd
    simp [stripQuotesJS, hc', hd', hrev]

theorem jsonStringify_ends (l : List Str) :
    ∃ u : Str, jsonStringifyTags l = '[' :: u ∧ (jsonStringifyTags l).reverse = ']' :: ('[' :: u).reverse.tail := by
  refine ⟨joinCommaStr (l.map (fun x => '"' :: (x ++ ['"']))) ++ [']'], rfl, ?_⟩
  simp [jsonStringifyTags]

theorem trim_jsonStringify (l : List Str) :
    trimJS (jsonStringifyTags l) = jsonStringifyTags l := by
  have hshape : jsonStringifyTags l
      = ('[' :: joinCommaStr (l.map (fun x => '"' :: (x ++ ['"'])))) ++ [']'] := by
    simp [jsonStringifyTags]
  apply trim_fix_of_ends (jsonStringifyTags l) '['
      ']' (joinCommaStr (l.map (fun x => '"' :: (x ++ ['"']))) ++ [']'])
      (('[' :: joinCommaStr (l.map (fun x => '"' :: (x ++ ['"'])))).reverse)
  · rfl
  · rw [hshape]
    simp
  · rfl
  · rfl

theorem wfKey_facts (k : Str) (h : wfKeyB k = true) :
    k ≠ [] ∧ trimJS k = k ∧ (':' ∉ k) ∧ ('\n' ∉ k) ∧
      ("---".data).isPrefixOf k = false := by
  simp only [wfKeyB, Bool.and_eq_true, Bool.not_eq_true', decide_eq_true_eq] at h
  obtain ⟨⟨⟨⟨h1, h2⟩, h3⟩, h4⟩, h5⟩ := h
  exact ⟨h1, h2, by simpa using h3, by simpa using h4, by simpa [jsStartsWith] using h5⟩

/-- The value part of a serialized line, as a string. -/
def valueStr : MV → Str
  | MV.str s => s
  | MV.tags l => jsonStringifyTags l
  | MV.nullv => "null".data

theorem lineBody_shape (k : Str) (v : MV) :
    lineBody (k, v) = k ++ ':' :: ' ' :: valueStr v := by
  cases v <;> simp [lineBody, valueStr]

theorem processLine_entry (data : List (Str × PV)) (k : Str) (v : MV)
    (hwf : wfEntryB (k, v) = true) (hdef : isDefinedMV v = true)
    (hfresh : ∀ e ∈ data, e.1 ≠ k) :
    processLine data (lineBody (k, v)) = data ++ [convMV (k, v)] := by
  have hupsert : ∀ pv : PV, upsertData data k pv = data ++ [(k, pv)] := by
    intro pv
    have hany : data.any (fun kv => kv.1 = k) = false := by
      rw [List.any_eq_false]
      intro e he
      simpa using hfresh e he
    simp [upsertData, hany]
  cases v with
  | nullv => simp [isDefinedMV] at hdef
  | str s =>
    simp only [wfEntryB, Bool.and_eq_true, decide_eq_true_eq] at hwf
    obtain ⟨⟨hk, hknt⟩, hs⟩ := hwf
    obtain ⟨hk1, hk2, hk3, _, _⟩ := wfKey_facts k hk
    rw [lineBody_shape, processLine, firstIdx_colon k hk3 (' ' :: valueStr (MV.str s))]
    simp only [List.length_pos.mpr hk1, if_pos (List.length_pos.mpr hk1)]
    rw [List.take_left, List.drop_append 1]
    simp only [List.drop_one, List.tail_cons]
    rw [hk2, trim_cons_space ' ' _ (by simp [isSpaceJS])]
    have hts : trimJS (valueStr (MV.str s)) = s := by
      simp only [valueStr]
      simp only [wfScalarB, Bool.and_eq_true, decide_eq_true_eq] at hs
      exact hs.1.1.2
    rw [hts, if_neg hknt, stripQuotes_of_wf s hs, hupsert]
    rfl
  | tags l =>
    simp only [wfEntryB, Bool.and_eq_true, decide_eq_true_eq] at hwf
    obtain ⟨⟨hk, hkt⟩, hl⟩ := hwf
    obtain ⟨hk1, hk2, hk3, _, _⟩ := wfKey_facts k hk
    rw [lineBody_shape, processLine, firstIdx_colon k hk3 (' ' :: valueStr (MV.tags l))]
    simp only [List.length_pos.mpr hk1, if_pos (List.length_pos.mpr hk1)]
    rw [List.take_left, List.drop_append 1]
    simp only [List.drop_one, List.tail_cons]
    rw [hk2, trim_cons_space ' ' _ (by simp [isSpaceJS])]
    have hts : trimJS (valueStr (MV.tags l)) = jsonStringifyTags l := by
      simp only [valueStr]
      exact trim_jsonStringify l
    rw [hts, if_pos hkt, jsonParse_stringify l hl, ← hkt]
    simp [hupsert, convMV]

theorem convMV_fst (kv : Str × MV) : (convMV kv).1 = kv.1 := by
  obtain ⟨k, v⟩ := kv
  cases v <;> rfl

theorem fold_processLine :
    ∀ (vd : List (Str × MV)) (acc : List (Str × PV)),
      (∀ kv ∈ vd, wfEntryB kv = true ∧ isDefinedMV kv.2 = true) →
      (vd.map Prod.fst).Nodup →
      (∀ e ∈ acc, ∀ kv ∈ vd, e.1 ≠ kv.1) →
      (vd.map lineBody).foldl processLine acc = acc ++ vd.map convMV
  | [], acc, _, _, _ => by simp
  | kv :: rest, acc, hwf, hnodup, hdisj => by
    obtain ⟨k, v⟩ := kv
    simp only [List.map_cons, List.foldl_cons]
    have hk := hwf (k, v) (by simp)
    rw [processLine_entry acc k v hk.1 hk.2 (fun e he => hdisj e he (k, v) (by simp))]
    simp only [List.map_cons, List.nodup_cons] at hnodup
    rw [fold_processLine rest (acc ++ [convMV (k, v)])
      (fun kv2 hm => hwf kv2 (List.mem_cons_of_mem _ hm))
      hnodup.2
      (by
        intro e he kv2 hm2
        rcases List.mem_append.mp he with he | he
        · exact hdisj e he kv2 (List.mem_cons_of_mem _ hm2)
        · have heq : e = convMV (k, v) := by simpa using he
          subst heq
          rw [convMV_fst]
          intro hh
          have hh' : k = kv2.1 := hh
          have hmem : kv2.1 ∈ rest.map Prod.fst := List.mem_map_of_mem Prod.fst hm2
          rw [← hh'] at hmem
          exact hnodup.1 hmem)]
    simp

theorem fmLine_eq (k : Str) (v : MV) (hwf : wfEntryB (k, v) = true) :
    fmLine k v = lineBody (k, v) ++ ['\n'] := by
  cases v with
  | str s => simp [fmLine, lineBody, jsStringOfMV]
  | tags l =>
    simp only [wfEntryB, Bool.and_eq_true, decide_eq_true_eq] at hwf
    obtain ⟨⟨_, hkt⟩, _⟩ := hwf
    subst hkt
    simp [fmLine, lineBody]
  | nullv => simp [fmLine, lineBody, jsStringOfMV]

theorem fmLines_eq_joinNL :
    ∀ vd : List (Str × MV), vd ≠ [] → (∀ kv ∈ vd, wfEntryB kv = true) →
      fmLines vd = joinNL (vd.map lineBody) ++ ['\n']
  | [], h, _ => absurd rfl h
  | [(k, v)], _, hwf => by
    simp only [fmLines, List.map_cons, List.map_nil, joinNL]
    rw [fmLine_eq k v (hwf (k, v) (by simp))]
    simp
  | (k, v) :: (k2, v2) :: rest, _, hwf => by
    rw [show fmLines ((k, v) :: (k2, v2) :: rest)
        = fmLine k v ++ fmLines ((k2, v2) :: rest) from rfl]
    rw [fmLine_eq k v (hwf (k, v) (by simp)),
      fmLines_eq_joinNL ((k2, v2) :: rest) (by simp)
        (fun e hm => hwf e (List.mem_cons_of_mem _ hm))]
    simp only [List.map_cons]
    rw [show joinNL (lineBody (k, v) :: lineBody (k2, v2) :: rest.map lineBody)
        = lineBody (k, v) ++ '\n' :: joinNL (lineBody (k2, v2) :: rest.map lineBody) from rfl]
    simp

theorem stringify_shape (m : List (Str × MV)) (b : Str) (h1 : validData m ≠ [])
    (hwf : ∀ kv ∈ validData m, wfEntryB kv = true) :
    stringifyFrontMatter m b
      = "---\n".data ++ (joinNL ((validData m).map lineBody) ++ ['\n'])
        ++ "---\n\n".data ++ trimJS b := by
  simp only [stringifyFrontMatter]
  rw [if_neg (fun hh => h1 (List.length_eq_zero.mp hh))]
  rw [fmLines_eq_joinNL _ h1 hwf]

theorem not_dash3_prefix_gen :
    ∀ (L Z : Str) (c : Char), ('-' == c) = false → ("---".data).isPrefixOf L = false →
      ("---".data).isPrefixOf (L ++ c :: Z) = false
  | [], Z, c, hc, _ => by
    simp [List.isPrefixOf, hc]
  | [a], Z, c, hc, _ => by
    simp [List.isPrefixOf, hc]
  | [a, d], Z, c, hc, _ => by
    simp [List.isPrefixOf, hc]
  | a :: d :: e :: t, Z, c, _, h => by
    simp only [List.cons_append]
    simp only [List.isPrefixOf] at h ⊢
    simpa using h

theorem no_newline_quoted (t : Str) (ht : t.all wfTagCh = true) :
    '\n' ∉ '"' :: (t ++ ['"']) := by
  intro hm
  rcases List.mem_cons.mp hm with hm | hm
  · simp at hm
  · rcases List.mem_append.mp hm with hm | hm
    · have := List.all_eq_true.mp ht '\n' hm
      simp [wfTagCh] at this
    · simp at hm

theorem no_newline_joinComma :
    ∀ l : List Str, wfTagsB l = true →
      '\n' ∉ joinCommaStr (l.map (fun x => '"' :: (x ++ ['"'])))
  | [], _ => by simp [joinCommaStr]
  | [t], hwf => by
    have ht : t.all wfTagCh = true := by simpa [wfTagsB] using hwf
    simp only [List.map_cons, List.map_nil, joinCommaStr]
    exact no_newline_quoted t ht
  | t :: b :: l2, hwf => by
    have ht : t.all wfTagCh = true := by
      simp only [wfTagsB, List.all_cons, Bool.and_eq_true] at hwf
      exact hwf.1
    have hrest : wfTagsB (b :: l2) = true := by
      simp only [wfTagsB, List.all_cons, Bool.and_eq_true] at hwf ⊢
      exact ⟨hwf.2.1, hwf.2.2⟩
    have hrec := no_newline_joinComma (b :: l2) hrest
    simp only [List.map_cons, joinCommaStr]
    intro hm
    rcases List.mem_append.mp hm with hm | hm
    · exact no_newline_quoted t ht hm
    · rcases List.mem_cons.mp hm with hm | hm
      · simp at hm
      · exact hrec (by simpa [List.map_cons] using hm)

theorem no_newline_jsonStringify (l : List Str) (hwf : wfTagsB l = true) :
    '\n' ∉ jsonStringifyTags l := by
  intro hm
  simp only [jsonStringifyTags] at hm
  rcases List.mem_cons.mp hm with hm | hm
  · simp at hm
  · rcases List.mem_append.mp hm with hm | hm
    · exact no_newline_joinComma l hwf hm
    · simp at hm

theorem mem_validData_defined (m : List (Str × MV)) (kv : Str × MV)
    (h : kv ∈ validData m) : isDefinedMV kv.2 = true :=
  (List.mem_filter.mp h).2

theorem lineBody_no_newline (k : Str) (v : MV)
    (hwf : wfEntryB (k, v) = true) (hdef : isDefinedMV v = true) :
    '\n' ∉ lineBody (k, v) := by
  rw [lineBody_shape]
  intro hm
  simp only [List.mem_append, List.mem_cons] at hm
  rcases hm with hm | hm | hm | hm
  · cases v with
    | str s =>
      simp only [wfEntryB, Bool.and_eq_true] at hwf
      exact (wfKey_facts k hwf.1.1).2.2.2.1 hm
    | tags l =>
      simp only [wfEntryB, Bool.and_eq_true] at hwf
      exact (wfKey_facts k hwf.1.1).2.2.2.1 hm
    | nullv => simp [isDefinedMV] at hdef
  · simp at hm
  · simp at hm
  · cases v with
    | str s =>
      simp only [wfEntryB, Bool.and_eq_true] at hwf
      have hs := hwf.2
      simp only [wfScalarB, Bool.and_eq_true, Bool.not_eq_true'] at hs
      have hcont := hs.1.1.1
      simp only [valueStr] at hm
      have : s.contains '\n' = true := by
        simpa using hm
      rw [hcont] at this
      simp at this
    | tags l =>
      simp only [wfEntryB, Bool.and_eq_true] at hwf
      exact no_newline_jsonStringify l hwf.2 (by simpa [valueStr] using hm)
    | nullv => simp [isDefinedMV] at hdef

theorem lineBody_facts (k : Str) (v : MV)
    (hwf : wfEntryB (k, v) = true) (hdef : isDefinedMV v = true) :
    ('\n' ∉ lineBody (k, v)) ∧ ("---".data).isPrefixOf (lineBody (k, v)) = false := by
  refine ⟨lineBody_no_newline k v hwf hdef, ?_⟩
  have hk : wfKeyB k = true := by
    cases v with
    | str s => simp only [wfEntryB, Bool.and_eq_true] at hwf; exact hwf.1.1
    | tags l => simp only [wfEntryB, Bool.and_eq_true] at hwf; exact hwf.1.1
    | nullv => simp [isDefinedMV] at hdef
  rw [lineBody_shape]
  exact not_dash3_prefix_gen k (' ' :: valueStr v) ':' rfl (wfKey_facts k hk).2.2.2.2

/-- The backtracking case of the regex: on `"---\n\n---"` the greedy
`\s*` cannot keep the run's last newline (no `\n---` follows it), so the
engine retreats to the run's first newline and matches the whole input
with an empty captured block. -/
theorem fmMatch_backtracks :
    fmMatch ('-' :: '-' :: '-' :: '\n' :: '\n' :: '-' :: '-' :: '-' :: [])
      = some ([], 8) := by decide

theorem fmMatch_stringify (m : List (Str × MV)) (b : Str)
    (h1 : validData m ≠ [])
    (h3 : ∀ kv ∈ validData m, wfEntryB kv = true) :
    fmMatch (stringifyFrontMatter m b)
      = some (joinNL ((validData m).map lineBody),
          (joinNL ((validData m).map lineBody)).length + 10) := by
  obtain ⟨kv0, vrest, hvd⟩ : ∃ kv0 vrest, validData m = kv0 :: vrest := by
    cases hv : validData m with
    | nil => exact absurd hv h1
    | cons a t => exact ⟨a, t, rfl⟩
  have hwf0 : wfEntryB kv0 = true := h3 kv0 (hvd ▸ List.mem_cons_self kv0 vrest)
  have hdef0 : isDefinedMV kv0.2 = true :=
    mem_validData_defined m kv0 (hvd ▸ List.mem_cons_self kv0 vrest)
  obtain ⟨k0, v0⟩ := kv0
  have hk0 : wfKeyB k0 = true := by
    cases v0 with
    | str s => simp only [wfEntryB, Bool.and_eq_true] at hwf0; exact hwf0.1.1
    | tags l => simp only [wfEntryB, Bool.and_eq_true] at hwf0; exact hwf0.1.1
    | nullv => simp [isDefinedMV] at hdef0
  obtain ⟨c0, t0, hk0head⟩ : ∃ c0 t0, k0 = c0 :: t0 := by
    cases hk : k0 with
    | nil => exact absurd hk (wfKey_facts k0 hk0).1
    | cons c t => exact ⟨c, t, rfl⟩
  have hc0 : isSpaceJS c0 = false := by
    apply trimJS_head_not_space k0 c0 t0
    rw [(wfKey_facts k0 hk0).2.1, hk0head]
  have hlh : lineBody (k0, v0) = c0 :: (t0 ++ ':' :: ' ' :: valueStr v0) := by
    rw [lineBody_shape, hk0head]
    simp
  have hJh : ∃ uJ : Str, joinNL ((validData m).map lineBody) = c0 :: uJ := by
    rw [hvd, List.map_cons]
    cases vrest with
    | nil => exact ⟨t0 ++ ':' :: ' ' :: valueStr v0, by simp [joinNL, hlh]⟩
    | cons a t =>
      refine ⟨(t0 ++ ':' :: ' ' :: valueStr v0) ++ '\n' :: joinNL ((a :: t).map lineBody), ?_⟩
      rw [List.map_cons, joinNL_cons_ne _ _ (by simp), hlh]
      simp
  obtain ⟨uJ, hJh⟩ := hJh
  have hS := stringify_shape m b h1 h3
  have hS2 : stringifyFrontMatter m b
      = '-' :: '-' :: '-' :: '\n' :: (joinNL ((validData m).map lineBody)
          ++ '\n' :: '-' :: '-' :: '-' :: ('\n' :: '\n' :: trimJS b)) := by
    rw [hS, show "---\n".data = ['-', '-', '-', '\n'] from rfl,
      show "---\n\n".data = ['-', '-', '-', '\n', '\n'] from rfl]
    simp
  have hpre : ("---".data).isPrefixOf ('-' :: '-' :: '-' :: '\n'
      :: (joinNL ((validData m).map lineBody)
        ++ '\n' :: '-' :: '-' :: '-' :: ('\n' :: '\n' :: trimJS b))) = true := by
    simp [List.isPrefixOf]
  have htwR : (joinNL ((validData m).map lineBody)
      ++ '\n' :: '-' :: '-' :: '-' :: ('\n' :: '\n' :: trimJS b)).takeWhile isSpaceJS
      = [] := by
    rw [hJh, List.cons_append]
    exact takeWhile_cons_false isSpaceJS c0 _ hc0
  have hfind : findSubIdx "\n---".data
      (joinNL ((validData m).map lineBody)
        ++ '\n' :: '-' :: '-' :: '-' :: ('\n' :: '\n' :: trimJS b))
      = some (joinNL ((validData m).map lineBody)).length := by
    apply findSub_joinNL
    · rw [hvd]
      simp
    · intro L hm
      obtain ⟨kv, hkv, hL⟩ := List.mem_map.mp hm
      obtain ⟨k, v⟩ := kv
      have := lineBody_facts k v (h3 (k, v) hkv) (mem_validData_defined m (k, v) hkv)
      rw [← hL]
      exact this
  have htwT : (trimJS b).takeWhile isSpaceJS = [] := by
    cases hT : trimJS b with
    | nil => simp
    | cons c t' => exact takeWhile_cons_false isSpaceJS c t' (trimJS_head_not_space b c t' hT)
  have hdrop3 : (('-' : Char) :: '-' :: '-' :: '\n'
      :: (joinNL ((validData m).map lineBody)
        ++ '\n' :: '-' :: '-' :: '-' :: ('\n' :: '\n' :: trimJS b))).drop 3
      = '\n' :: (joinNL ((validData m).map lineBody)
        ++ '\n' :: '-' :: '-' :: '-' :: ('\n' :: '\n' :: trimJS b)) := rfl
  have hdrop4 : (('-' : Char) :: '-' :: '-' :: '\n'
      :: (joinNL ((validData m).map lineBody)
        ++ '\n' :: '-' :: '-' :: '-' :: ('\n' :: '\n' :: trimJS b))).drop (3 + 0 + 1)
      = joinNL ((validData m).map lineBody)
        ++ '\n' :: '-' :: '-' :: '-' :: ('\n' :: '\n' :: trimJS b) := rfl
  have hdropJ4 : (joinNL ((validData m).map lineBody)
      ++ '\n' :: '-' :: '-' :: '-' :: ('\n' :: '\n' :: trimJS b)).drop
        ((joinNL ((validData m).map lineBody)).length + 4)
      = '\n' :: '\n' :: trimJS b := by
    rw [List.drop_append 4]
    rfl
  rw [hS2]
  rw [fmMatch, if_pos hpre]
  simp only [hdrop3, List.takeWhile_cons_of_pos (show isSpaceJS '\n' = true from rfl),
    htwR, show (nlIdxsAsc ['\n']).reverse = [0] from rfl, fmTryList, fmTryAt,
    hdrop4, hfind, hdropJ4,
    htwT, List.take_left, List.length_cons, List.length_nil,
    Option.some.injEq, Prod.mk.injEq]
  exact ⟨trivial, by omega⟩

/-- C3: amended round trip. Provided the metadata map has at least one
defined entry, keys are pairwise distinct, and every entry is well formed
(trimmed key without `:`/`\n`, scalar without newline or surrounding
quote characters, tags without `"`/`\\`/`\n`/`,`), parsing the serialized
note recovers exactly the defined entries (tags as the same string array,
scalars as the same string) and the body trimmed. -/
theorem c3_roundtrip_amended (m : List (Str × MV)) (b : Str)
    (h1 : validData m ≠ [])
    (h2 : ((validData m).map Prod.fst).Nodup)
    (h3 : ∀ kv ∈ validData m, wfEntryB kv = true) :
    parseFrontMatter (stringifyFrontMatter m b)
      = ((validData m).map convMV, trimJS b) := by
  have hfm := fmMatch_stringify m b h1 h3
  rw [parseFrontMatter, hfm]
  show ((splitOnChar '\n' (joinNL ((validData m).map lineBody))).foldl processLine [],
      (stringifyFrontMatter m b).drop ((joinNL ((validData m).map lineBody)).length + 10))
    = ((validData m).map convMV, trimJS b)
  have hsplit : splitOnChar '\n' (joinNL ((validData m).map lineBody))
      = (validData m).map lineBody := by
    apply splitOn_joinNL
    · intro hh
      exact h1 (List.map_eq_nil_iff.mp hh)
    · intro L hm
      obtain ⟨kv, hkv, hL⟩ := List.mem_map.mp hm
      obtain ⟨k, v⟩ := kv
      rw [← hL]
      exact lineBody_no_newline k v (h3 (k, v) hkv) (mem_validData_defined m (k, v) hkv)
  have hfold : ((validData m).map lineBody).foldl processLine []
      = (validData m).map convMV := by
    rw [fold_processLine (validData m) []
      (fun kv hm => ⟨h3 kv hm, mem_validData_defined m kv hm⟩)
      h2
      (fun e he => absurd he (List.not_mem_nil e))]
    simp
  have hpre2 : stringifyFrontMatter m b
      = (['-', '-', '-', '\n'] ++ joinNL ((validData m).map lineBody)
          ++ ['\n', '-', '-', '-', '\n', '\n']) ++ trimJS b := by
    rw [stringify_shape m b h1 h3,
      show "---\n".data = ['-', '-', '-', '\n'] from rfl,
      show "---\n\n".data = ['-', '-', '-', '\n', '\n'] from rfl]
    simp
  have hlen : (['-', '-', '-', '\n'] ++ joinNL ((validData m).map lineBody)
      ++ ['\n', '-', '-', '-', '\n', '\n']).length
      = (joinNL ((validData m).map lineBody)).length + 10 := by
    simp [List.length_append]
  rw [hsplit, hfold, hpre2, ← hlen, List.drop_left]

/-- C3 counterexample to the unconditional claim: with an empty metadata
map the serializer returns the body unmodified, so the parsed body is the
original untrimmed string, not its trim; and a scalar wrapped in single
quotes does not survive the round trip, because the parser strips a
leading/trailing quote character. -/
theorem c3_roundtrip_counterexample :
    (parseFrontMatter (stringifyFrontMatter [] " x ".data)).2 ≠ trimJS " x ".data
    ∧ (parseFrontMatter (stringifyFrontMatter
        [("k".data, MV.str "'a'".data)] "b".data)).1
      ≠ [("k".data, PV.str "'a'".data)] := by
  constructor
  · decide
  · decide

theorem c3_roundtrip_amended_witness :
    validData [("id".data, MV.str "note:A.md".data),
        ("tags".data, MV.tags ["x".data, "y".data])] ≠ []
    ∧ ((validData [("id".data, MV.str "note:A.md".data),
        ("tags".data, MV.tags ["x".data, "y".data])]).map Prod.fst).Nodup
    ∧ (∀ kv ∈ validData [("id".data, MV.str "note:A.md".data),
        ("tags".data, MV.tags ["x".data, "y".data])], wfEntryB kv = true)
    ∧ parseFrontMatter (stringifyFrontMatter
        [("id".data, MV.str "note:A.md".data),
         ("tags".data, MV.tags ["x".data, "y".data])] " hello ".data)
      = ((validData [("id".data, MV.str "note:A.md".data),
          ("tags".data, MV.tags ["x".data, "y".data])]).map convMV,
         trimJS " hello ".data) :=
  ⟨by decide, by decide, by decide,
    c3_roundtrip_amended
      [("id".data, MV.str "note:A.md".data),
       ("tags".data, MV.tags ["x".data, "y".data])]
      " hello ".data (by decide) (by decide) (by decide)⟩
